import Mathlib

-- Verification of the MovR workload generator (pkg/workload/movr/movr.go):
-- the city partition, the row generators and the configuration check.
-- Go integers are modelled by `Int` with explicit 64-bit wrap-around, float64 by
-- exact binary64 arithmetic (round to nearest, ties to even).

namespace Movr

-- Definitions: the embedding of the program, then the notions used to state
-- and prove its properties.

/-- Position of the leading one bit: `ilog2 n n = ⌊log₂ n⌋` for `n > 0`
(the first argument bounds the number of halvings). -/
def ilog2 : Nat → Nat → Nat
  | 0, _ => 0
  | fuel + 1, n => if n < 2 then 0 else ilog2 fuel (n / 2) + 1

/-- Rounds the positive rational `a / b` to 53 significant bits, to nearest
with ties to even.  The result `(m, e)` stands for `m * 2 ^ e` with
`2 ^ 52 ≤ m ≤ 2 ^ 53`; zero is `(0, 0)`. -/
def roundNat (a b : Nat) : Nat × Int :=
  if a = 0 then (0, 0) else
  let e0 : Int := (ilog2 a a : Int) - (ilog2 b b : Int) - 53
  let num := if 0 ≤ e0 then a else a * 2 ^ (-e0).toNat
  let den0 := if 0 ≤ e0 then b * 2 ^ e0.toNat else b
  let big : Bool := decide (2 ^ 53 ≤ num / den0)
  let den := if big then 2 * den0 else den0
  let e := if big then e0 + 1 else e0
  let q := num / den
  let r := num % den
  let m := if 2 * r < den then q else if den < 2 * r then q + 1 else q + q % 2
  (m, e)

/-- Round half even on the rationals (specification of the mantissa rounding). -/
def rne (t : ℚ) : ℤ :=
  if t - ⌊t⌋ < 1 / 2 then ⌊t⌋
  else if 1 / 2 < t - ⌊t⌋ then ⌊t⌋ + 1
  else if ⌊t⌋ % 2 = 0 then ⌊t⌋ else ⌊t⌋ + 1

/-- `v` is the binary64 rounding of the non-negative rational `q`: zero stays
zero, and on every binade `[2^52 * 2^E, 2^53 * 2^E]` that holds `q` the result
is the half-even rounding of `q / 2^E`, scaled back. -/
def IsRN (q v : ℚ) : Prop :=
  (q = 0 → v = 0) ∧
  ∀ E : ℤ, 2 ^ 52 * (2 : ℚ) ^ E ≤ q → q ≤ 2 ^ 53 * (2 : ℚ) ^ E →
    v = rne (q / (2 : ℚ) ^ E) * (2 : ℚ) ^ E

/-- A finite binary64 value `m * 2 ^ e`; the sign is the sign of `m`. -/
structure F64 where
  m : Int
  e : Int
deriving DecidableEq

/-- The rational number a binary64 value stands for. -/
def F64.toQ (x : F64) : ℚ := (x.m : ℚ) * (2 : ℚ) ^ x.e

/-- Rounds `num / den * 2 ^ sh` to binary64 (nearest, ties to even).  The
exponent range of binary64 is not modelled: every value the generator forms
from 64-bit integers lies between `2 ^ (-70)` and `2 ^ 70`, far inside it. -/
def F64.round (num : Int) (den : Nat) (sh : Int) : F64 :=
  let r := roundNat num.natAbs den
  { m := if num < 0 then -(r.1 : Int) else (r.1 : Int), e := r.2 + sh }

/-- Go conversion `float64(i)` of an integer. -/
def F64.ofInt (i : Int) : F64 := F64.round i 1 0

/-- Go `x * y` on float64. -/
def F64.mul (x y : F64) : F64 := F64.round (x.m * y.m) 1 (x.e + y.e)

/-- Go `x / y` on float64, for a divisor different from zero (the generator
only divides by `float64(len(cities))` and by `numPerCity`). -/
def F64.div (x y : F64) : F64 :=
  F64.round (if y.m < 0 then -x.m else x.m) y.m.natAbs (x.e - y.e)

/-- The 64-bit `int` a float64 holding the whole number `v` converts to.  A
value outside the range of `int` has no representation; Go leaves the result
to the implementation, and the conversion instruction of amd64 (CVTTSD2SQ)
yields `-2 ^ 63`, which is the value taken here. -/
def toInt64 (v : Int) : Int := if -2 ^ 63 ≤ v ∧ v < 2 ^ 63 then v else -2 ^ 63

/-- Go `int(math.Ceil(x))`: the least integer not below `x`, converted to `int`. -/
def F64.ceil (x : F64) : Int :=
  toInt64 (if 0 ≤ x.e then x.m * 2 ^ x.e.toNat else -((-x.m) / 2 ^ (-x.e).toNat))

/-- Go conversion `int(x)` of a float64: the fraction is discarded
(truncation towards zero) and the whole number converted to `int`. -/
def F64.toInt (x : F64) : Int :=
  toInt64 (if 0 ≤ x.e then x.m * 2 ^ x.e.toNat else Int.tdiv x.m (2 ^ (-x.e).toNat))

/-- One entry of the `cities` table. -/
structure City where
  city : String
  locality : String
deriving DecidableEq

/-- The fixed, ordered list of cities. -/
def cities : List City :=
  [ { city := "new york", locality := "us_east" },
    { city := "boston", locality := "us_east" },
    { city := "washington dc", locality := "us_east" },
    { city := "seattle", locality := "us_west" },
    { city := "san francisco", locality := "us_west" },
    { city := "los angeles", locality := "us_west" },
    { city := "chicago", locality := "us_central" },
    { city := "detroit", locality := "us_central" },
    { city := "minneapolis", locality := "us_central" },
    { city := "amsterdam", locality := "eu_west" },
    { city := "paris", locality := "eu_west" },
    { city := "rome", locality := "eu_west" } ]

/-- Go slice indexing `cities[i]`; `none` is the index-out-of-range panic. -/
def cityAt (i : Int) : Option City :=
  if 0 ≤ i then cities.get? i.toNat else none

/-- Maps each of `numRows` rows to a city and a city back to a range of rows. -/
structure cityDistributor where
  numRows : Int
deriving DecidableEq

/-- Source `cityDistributor.cityForRow`; `none` is the panic raised when
`numRows < len(cities)`. -/
def cityDistributor.cityForRow (d : cityDistributor) (rowIdx : Int) : Option Int :=
  if d.numRows < (cities.length : Int) then none
  else
    let numPerCity := F64.div (F64.ofInt d.numRows) (F64.ofInt (cities.length : Int))
    let cityIdx := F64.toInt (F64.div (F64.ofInt rowIdx) numPerCity)
    some cityIdx

/-- Source `cityDistributor.rowsForCity`, returning `(min, max)`; `none` is the
panic raised when `numRows < len(cities)`. -/
def cityDistributor.rowsForCity (d : cityDistributor) (cityIdx : Int) : Option (Int × Int) :=
  if d.numRows < (cities.length : Int) then none
  else
    let numPerCity := F64.div (F64.ofInt d.numRows) (F64.ofInt (cities.length : Int))
    let min := F64.ceil (F64.mul (F64.ofInt cityIdx) numPerCity)
    let max := F64.ceil (F64.mul (F64.ofInt (cityIdx + 1)) numPerCity)
    let min := if min ≥ d.numRows then d.numRows else min
    let max := if max ≥ d.numRows then d.numRows else max
    some (min, max)

/-- The random source `*rand.Rand`: an arbitrary stream of raw draws and the
position of the next one. -/
structure Rand where
  stream : Nat → Nat
  pos : Nat

/-- Library `rng.Intn(n)`: a value in `[0, n)`, and a panic (`none`) when `n ≤ 0`. -/
def Rand.Intn (rng : Rand) (n : Int) : Option (Int × Rand) :=
  if n ≤ 0 then none
  else some ((rng.stream rng.pos : Int) % n, { stream := rng.stream, pos := rng.pos + 1 })

/-- Wrap-around of 64-bit signed arithmetic (`int`, `int64`, `time.Duration`). -/
def wrap64 (x : Int) : Int := (x + 2 ^ 63) % 2 ^ 64 - 2 ^ 63

/-- Source `cityDistributor.randRowInCity`; `none` is a panic (of `rowsForCity`
or of `Intn`). -/
def cityDistributor.randRowInCity (d : cityDistributor) (rng : Rand) (cityIdx : Int) :
    Option (Int × Rand) :=
  match d.rowsForCity cityIdx with
  | none => none
  | some (min, max) =>
    match rng.Intn (wrap64 (max - min)) with
    | none => none
    | some (v, rng) => some (wrap64 (min + v), rng)

/-- Go conversion `uint64(i)` of an `int`. -/
def toUint64 (i : Int) : Nat := (i % 2 ^ 64).toNat

/-- Nanoseconds in `time.Millisecond`. -/
def millisecond : Int := 1000000

/-- Nanoseconds in `time.Hour`. -/
def hour : Int := 3600000000000

/-- One value of a generated row (`interface{}`). -/
inductive Datum where
  | str (s : String)
  | int (i : Int)
  | float (x : F64)
  | time (ns : Int)
  | timestamp (us : Int)
deriving DecidableEq

/-- The value of `t.Format(timestampFormat)`: the layout prints the instant in
UTC down to microseconds, so the rendering is represented by the instant cut
to whole microseconds. -/
def formatTimestamp (ns : Int) : Datum := Datum.timestamp (ns / 1000)

/-- Decimal digit character. -/
def digitChar (d : Nat) : Char :=
  match d with
  | 0 => '0' | 1 => '1' | 2 => '2' | 3 => '3' | 4 => '4'
  | 5 => '5' | 6 => '6' | 7 => '7' | 8 => '8' | _ => '9'

/-- Decimal digits of `n`, most significant first (the first argument bounds
the number of digits). -/
def decimalDigits : Nat → Nat → List Char
  | 0, _ => []
  | fuel + 1, n =>
    (if n < 10 then [] else decimalDigits fuel (n / 10)) ++ [digitChar (n % 10)]

/-- The verb `%d` of `fmt.Sprintf` applied to an `int`. -/
def formatInt (i : Int) : String :=
  if i < 0 then String.mk ('-' :: decimalDigits (i.natAbs + 1) i.natAbs)
  else String.mk (decimalDigits (i.toNat + 1) i.toNat)

/-- The collaborators the generator calls but does not define: the seeded
random source, the deterministic identifier and the field value provider. -/
structure Provider where
  newRand : Nat → Rand
  deterministicV4 : Nat → Nat → String
  randName : Rand → String × Rand
  randAddress : Rand → String × Rand
  randCreditCard : Rand → String × Rand
  randVehicleType : Rand → String × Rand
  randVehicleStatus : Rand → String × Rand
  randVehicleMetadata : Rand → String → String × Rand
  randWord : Rand → String × Rand
  randParagraph : Rand → String × Rand

/-- The generator state `movr` (flags and connection settings left out). -/
structure movr where
  seed : Nat
  users : cityDistributor
  vehicles : cityDistributor
  rides : cityDistributor
  histories : cityDistributor
  numPromoCodes : Int
  creationTime : Int

/-- The generator built by `movrMeta.New` with every flag at its default;
`creationTime` is 2019-01-02 03:04:05.000000006 UTC in nanoseconds since the
Unix epoch. -/
def movrDefault : movr :=
  { seed := 1, users := { numRows := 50 }, vehicles := { numRows := 15 },
    rides := { numRows := 500 }, histories := { numRows := 1000 },
    numPromoCodes := 1000, creationTime := 1546398245000000006 }

/-- Source `Hooks().Validate`: `none` is `nil`, `some msg` an error with that message. -/
def movr.Validate (g : movr) : Option String :=
  if g.users.numRows < (cities.length : Int) then
    some ("at least " ++ formatInt (cities.length : Int) ++ " users are required")
  else if g.vehicles.numRows < (cities.length : Int) then
    some ("at least " ++ formatInt (cities.length : Int) ++ " vehicles are required")
  else if g.rides.numRows < (cities.length : Int) then
    some ("at least " ++ formatInt (cities.length : Int) ++ " rides are required")
  else if g.histories.numRows < (cities.length : Int) then
    some ("at least " ++ formatInt (cities.length : Int) ++ " histories are required")
  else none

/-- The seed handed to `rand.NewSource`: `g.seed + uint64(rowIdx)` in uint64. -/
def movr.rowSeed (g : movr) (rowIdx : Int) : Nat := (g.seed + toUint64 rowIdx) % 2 ^ 64

/-- Source `movrUsersInitialRow`; `none` is a panic. -/
def movr.movrUsersInitialRow (P : Provider) (g : movr) (rowIdx : Int) : Option (List Datum) :=
  let rng := P.newRand (g.rowSeed rowIdx)
  match g.users.cityForRow rowIdx with
  | none => none
  | some cityIdx =>
    match cityAt cityIdx with
    | none => none
    | some city =>
      let id := P.deterministicV4 (toUint64 rowIdx) (toUint64 g.users.numRows)
      let (name, rng) := P.randName rng
      let (address, rng) := P.randAddress rng
      let (creditCard, _) := P.randCreditCard rng
      some [Datum.str id, Datum.str city.city, Datum.str name, Datum.str address,
        Datum.str creditCard]

/-- Source `movrVehiclesInitialRow`; `none` is a panic. -/
def movr.movrVehiclesInitialRow (P : Provider) (g : movr) (rowIdx : Int) : Option (List Datum) :=
  let rng := P.newRand (g.rowSeed rowIdx)
  match g.vehicles.cityForRow rowIdx with
  | none => none
  | some cityIdx =>
    match cityAt cityIdx with
    | none => none
    | some city =>
      let id := P.deterministicV4 (toUint64 rowIdx) (toUint64 g.vehicles.numRows)
      let (vehicleType, rng) := P.randVehicleType rng
      match g.users.randRowInCity rng cityIdx with
      | none => none
      | some (ownerRowIdx, rng) =>
        match (g.movrUsersInitialRow P ownerRowIdx).bind (fun row => row.get? 0) with
        | none => none
        | some ownerID =>
          let (status, rng) := P.randVehicleStatus rng
          let (location, rng) := P.randAddress rng
          let (ext, _) := P.randVehicleMetadata rng vehicleType
          some [Datum.str id, Datum.str city.city, Datum.str vehicleType, ownerID,
            formatTimestamp g.creationTime, Datum.str status, Datum.str location,
            Datum.str ext]

/-- Source `movrRidesInitialRow`; `none` is a panic. -/
def movr.movrRidesInitialRow (P : Provider) (g : movr) (rowIdx : Int) : Option (List Datum) :=
  let rng := P.newRand (g.rowSeed rowIdx)
  match g.rides.cityForRow rowIdx with
  | none => none
  | some cityIdx =>
    match cityAt cityIdx with
    | none => none
    | some city =>
      let id := P.deterministicV4 (toUint64 rowIdx) (toUint64 g.rides.numRows)
      match g.users.randRowInCity rng cityIdx with
      | none => none
      | some (riderRowIdx, rng) =>
        match (g.movrUsersInitialRow P riderRowIdx).bind (fun row => row.get? 0) with
        | none => none
        | some riderID =>
          match g.vehicles.randRowInCity rng cityIdx with
          | none => none
          | some (vehicleRowIdx, rng) =>
            match (g.movrVehiclesInitialRow P vehicleRowIdx).bind (fun row => row.get? 0) with
            | none => none
            | some vehicleID =>
              match rng.Intn 30 with
              | none => none
              | some (a, rng) =>
                let startTime := g.creationTime + wrap64 (a * hour)
                match rng.Intn 30 with
                | none => none
                | some (b, rng) =>
                  let endTime := startTime + wrap64 (b * hour)
                  let (startAddress, rng) := P.randAddress rng
                  let (endAddress, rng) := P.randAddress rng
                  match rng.Intn 100 with
                  | none => none
                  | some (revenue, _) =>
                    some [Datum.str id, Datum.str city.city, Datum.str city.city, riderID,
                      vehicleID, Datum.str startAddress, Datum.str endAddress,
                      formatTimestamp startTime, formatTimestamp endTime, Datum.int revenue]

/-- Source `movrVehicleLocationHistoriesInitialRow`; `none` is a panic. -/
def movr.movrVehicleLocationHistoriesInitialRow (P : Provider) (g : movr) (rowIdx : Int) :
    Option (List Datum) :=
  let rng := P.newRand (g.rowSeed rowIdx)
  match g.histories.cityForRow rowIdx with
  | none => none
  | some cityIdx =>
    match cityAt cityIdx with
    | none => none
    | some city =>
      match g.rides.randRowInCity rng cityIdx with
      | none => none
      | some (rideRowIdx, rng) =>
        match (g.movrRidesInitialRow P rideRowIdx).bind (fun row => row.get? 0) with
        | none => none
        | some rideID =>
          let time := g.creationTime + wrap64 (rowIdx * millisecond)
          match rng.Intn 360 with
          | none => none
          | some (a, rng) =>
            match rng.Intn 180 with
            | none => none
            | some (b, _) =>
              let lat := F64.ofInt (-180 + a)
              let long := F64.ofInt (-90 + b)
              some [Datum.str city.city, rideID, formatTimestamp time, Datum.float lat,
                Datum.float long]

/-- The constant `rulesJSON`. -/
def rulesJSON : String := "\x7b\"type\": \"percent_discount\", \"value\": \"10%\"\x7d"

/-- Source `movrPromoCodesInitialRow`. -/
def movr.movrPromoCodesInitialRow (P : Provider) (g : movr) (rowIdx : Int) : Option (List Datum) :=
  let rng := P.newRand (g.rowSeed rowIdx)
  let (word0, rng) := P.randWord rng
  let (word1, rng) := P.randWord rng
  let (word2, rng) := P.randWord rng
  let code := String.intercalate "_" [word0, word1, word2] ++ "_" ++ formatInt rowIdx
  let (description, rng) := P.randParagraph rng
  match rng.Intn 30 with
  | none => none
  | some (a, rng) =>
    let expirationTime := g.creationTime + wrap64 (wrap64 (wrap64 (-a) * 24) * hour)
    match rng.Intn 30 with
    | none => none
    | some (b, _) =>
      let creationTime := expirationTime + wrap64 (wrap64 (wrap64 (-b) * 24) * hour)
      some [Datum.str code, Datum.str description, Datum.time creationTime,
        Datum.time expirationTime, Datum.str rulesJSON]

/-- The value `numPerCity` both partition functions compute. -/
def numPerCity (n : Int) : F64 := F64.div (F64.ofInt n) (F64.ofInt (cities.length : Int))

/-- The unclamped bound `int(math.Ceil(float64(c) * numPerCity))`. -/
def rawBound (n c : Int) : Int := F64.ceil (F64.mul (F64.ofInt c) (numPerCity n))

/-- The tiling property of C1, for one row count `n`. -/
def RowsTile (n : Int) : Prop :=
  (∃ mx, cityDistributor.rowsForCity ⟨n⟩ 0 = some (0, mx)) ∧
  (∃ mn, cityDistributor.rowsForCity ⟨n⟩ 11 = some (mn, n)) ∧
  (∀ c, 0 ≤ c → c ≤ 10 → ∃ a b d, cityDistributor.rowsForCity ⟨n⟩ c = some (a, b) ∧
      cityDistributor.rowsForCity ⟨n⟩ (c + 1) = some (b, d)) ∧
  (∀ c, 0 ≤ c → c ≤ 11 → ∃ a b, cityDistributor.rowsForCity ⟨n⟩ c = some (a, b) ∧ a ≤ b) ∧
  (∀ r, 0 ≤ r → r < n → ∃! c, 0 ≤ c ∧ c ≤ 11 ∧
      ∃ a b, cityDistributor.rowsForCity ⟨n⟩ c = some (a, b) ∧ a ≤ r ∧ r < b)

/-- A range bound as `rowsForCity` returns it: the raw bound cut at `numRows`. -/
def clampBound (n c : Int) : Int := if rawBound n c ≥ n then n else rawBound n c

/-- A random source that always draws zero. -/
def zeroRand : Rand := { stream := fun _ => 0, pos := 0 }

/-- Modelled from the spec: the collaborators absent from the source, in their
simplest form.  Identifiers of distinct rows are distinct (spec §3 and §4.2):
the decimal row index stands for the identifier.  Every field value is the
empty string and the random source always draws zero. -/
def zeroProvider : Provider :=
  { newRand := fun _ => zeroRand
    deterministicV4 := fun i _ => formatInt (i : Int)
    randName := fun rng => ("", rng)
    randAddress := fun rng => ("", rng)
    randCreditCard := fun rng => ("", rng)
    randVehicleType := fun rng => ("", rng)
    randVehicleStatus := fun rng => ("", rng)
    randVehicleMetadata := fun rng _ => ("", rng)
    randWord := fun rng => ("", rng)
    randParagraph := fun rng => ("", rng) }

/-- The number a list of decimal digits stands for. -/
def digitsVal (l : List Char) : Nat := l.foldl (fun acc ch => 10 * acc + (ch.toNat - 48)) 0

/-- A configuration with 614583952109015 users (about `2 ^ 49.1`) and twelve
rows in every other table. -/
def manyUsers : movr :=
  { seed := 1, users := { numRows := 614583952109015 }, vehicles := { numRows := 12 },
    rides := { numRows := 12 }, histories := { numRows := 12 },
    numPromoCodes := 1000, creationTime := 1546398245000000006 }

/-- The largest row index whose millisecond offset fits a 64-bit duration. -/
def maxMillis : Int := 9223372036854

/-- A configuration with 9223372036856 history rows (about `2 ^ 43`) and
twelve rows in every other table. -/
def manyHistories : movr :=
  { seed := 1, users := { numRows := 12 }, vehicles := { numRows := 12 },
    rides := { numRows := 12 }, histories := { numRows := 9223372036856 },
    numPromoCodes := 1000, creationTime := 1546398245000000006 }

-- Theorems.

theorem ilog2_spec : ∀ (fuel n : Nat), 0 < n → n ≤ fuel →
    2 ^ ilog2 fuel n ≤ n ∧ n < 2 ^ (ilog2 fuel n + 1)
  | 0, n, h0, hf => by omega
  | fuel + 1, n, h0, hf => by
    unfold ilog2
    split
    · constructor <;> simp <;> omega
    · have h2 : 0 < n / 2 := by omega
      have hle : n / 2 ≤ fuel := by omega
      obtain ⟨ih1, ih2⟩ := ilog2_spec fuel (n / 2) h2 hle
      constructor
      · rw [pow_succ]; omega
      · rw [pow_succ]; omega

theorem rne_intCast (k : ℤ) : rne (k : ℚ) = k := by
  unfold rne
  simp

theorem rne_near (t : ℚ) : |(rne t : ℚ) - t| ≤ 1 / 2 := by
  unfold rne
  have h1 := Int.floor_le t
  have h2 := Int.lt_floor_add_one t
  rw [abs_le]
  split_ifs with ha hb hc
  · constructor <;> linarith
  · push_cast; constructor <;> linarith
  · constructor <;> linarith
  · push_cast; constructor <;> linarith

theorem rne_eq_of_lt (t : ℚ) (k : ℤ) (h : |t - k| < 1 / 2) : rne t = k := by
  have h1 := rne_near t
  rw [abs_lt] at h
  rw [abs_le] at h1
  have h3 : ((rne t - k : ℤ) : ℚ) < 1 := by push_cast; linarith
  have h4 : (-1 : ℚ) < ((rne t - k : ℤ) : ℚ) := by push_cast; linarith
  have h5 : rne t - k < 1 := by exact_mod_cast h3
  have h6 : -1 < rne t - k := by exact_mod_cast h4
  omega

theorem rne_eq_of_le (t : ℚ) (k : ℤ) (hk : k % 2 = 0) (h : |t - k| ≤ 1 / 2) :
    rne t = k := by
  rcases lt_or_eq_of_le h with h | h
  · exact rne_eq_of_lt t k h
  · rcases abs_eq (by norm_num : (0 : ℚ) ≤ 1 / 2) |>.mp h with h | h
    · have ht : t = k + 1 / 2 := by linarith
      have hf : ⌊t⌋ = k := by
        rw [Int.floor_eq_iff]; constructor <;> linarith
      unfold rne
      rw [hf]
      have h1 : ¬ (t - k < 1 / 2) := by linarith
      have h2 : ¬ (1 / 2 < t - k) := by linarith
      rw [if_neg h1, if_neg h2, if_pos hk]
    · have ht : t = (k - 1 : ℤ) + 1 / 2 := by push_cast; linarith
      have hf : ⌊t⌋ = k - 1 := by
        rw [Int.floor_eq_iff]; push_cast; constructor <;> linarith
      unfold rne
      rw [hf]
      have h1 : ¬ (t - ((k - 1 : ℤ) : ℚ) < 1 / 2) := by push_cast; linarith
      have h2 : ¬ (1 / 2 < t - ((k - 1 : ℤ) : ℚ)) := by push_cast; linarith
      have h3 : ¬ ((k - 1) % 2 = 0) := by omega
      rw [if_neg h1, if_neg h2, if_neg h3]; ring

theorem rne_mono {s t : ℚ} (h : s ≤ t) : rne s ≤ rne t := by
  by_contra hlt
  push_neg at hlt
  -- rne t + 1 ≤ rne s, both within 1/2: forces s = t-ish tie
  have hs := rne_near s
  have ht := rne_near t
  rw [abs_le] at hs ht
  have h1 : (rne t : ℚ) + 1 ≤ rne s := by exact_mod_cast hlt
  have e1 : (rne s : ℚ) = s + 1 / 2 := by linarith
  have e2 : (rne t : ℚ) = t - 1 / 2 := by linarith
  have e3 : s = t := by linarith
  subst e3
  linarith

theorem rne_divmod (n d q r : ℕ) (hd : 0 < d) (hr : r < d) (hn : n = d * q + r) :
    rne ((n : ℚ) / d) =
      ((if 2 * r < d then q else if d < 2 * r then q + 1 else q + q % 2 : ℕ) : ℤ) := by
  have hdq : (0 : ℚ) < d := by exact_mod_cast hd
  have hdiv : (n : ℚ) = (d : ℚ) * (q : ℚ) + (r : ℚ) := by exact_mod_cast hn
  have hmod : (r : ℚ) < d := by exact_mod_cast hr
  have hmod0 : (0 : ℚ) ≤ (r : ℚ) := by positivity
  have hval : (n : ℚ) / d = (q : ℚ) + (r : ℚ) / d := by
    field_simp; linarith
  have hfr0 : (0 : ℚ) ≤ (r : ℚ) / d := by positivity
  have hfr1 : (r : ℚ) / d < 1 := by rw [div_lt_one hdq]; exact hmod
  have hfl : ⌊(n : ℚ) / d⌋ = (q : ℤ) := by
    rw [Int.floor_eq_iff]; push_cast; constructor <;> linarith
  have hsub : (n : ℚ) / d - ((q : ℤ) : ℚ) = (r : ℚ) / d := by
    push_cast; linarith
  unfold rne
  rw [hfl, hsub]
  have c1 : (r : ℚ) / d < 1 / 2 ↔ 2 * r < d := by
    rw [div_lt_iff hdq]
    constructor
    · intro h
      have : ((2 * r : ℕ) : ℚ) < d := by push_cast; linarith
      exact_mod_cast this
    · intro h
      have : ((2 * r : ℕ) : ℚ) < d := by exact_mod_cast h
      push_cast at this; linarith
  have c2 : 1 / 2 < (r : ℚ) / d ↔ d < 2 * r := by
    rw [lt_div_iff hdq]
    constructor
    · intro h
      have : (d : ℚ) < ((2 * r : ℕ) : ℚ) := by push_cast; linarith
      exact_mod_cast this
    · intro h
      have : (d : ℚ) < ((2 * r : ℕ) : ℚ) := by exact_mod_cast h
      push_cast at this; linarith
  have c3 : (q : ℤ) % 2 = 0 ↔ q % 2 = 0 := by omega
  by_cases h1 : 2 * r < d
  · rw [if_pos (c1.mpr h1), if_pos h1]
  · by_cases h2 : d < 2 * r
    · rw [if_neg (fun h => h1 (c1.mp h)), if_pos (c2.mpr h2), if_neg h1, if_pos h2]
      push_cast; ring
    · rw [if_neg (fun h => h1 (c1.mp h)), if_neg (fun h => h2 (c2.mp h)), if_neg h1, if_neg h2]
      by_cases h3 : q % 2 = 0
      · rw [if_pos (c3.mpr h3), h3]; simp
      · rw [if_neg (fun h => h3 (c3.mp h))]
        have : q % 2 = 1 := by omega
        rw [this]; push_cast; ring

theorem rne_natDiv (n d : ℕ) (hd : 0 < d) :
    rne ((n : ℚ) / d) =
      ((if 2 * (n % d) < d then n / d else if d < 2 * (n % d) then n / d + 1
        else n / d + (n / d) % 2 : ℕ) : ℤ) :=
  rne_divmod n d (n / d) (n % d) hd (Nat.mod_lt n hd) (Nat.div_add_mod n d).symm

theorem roundNat_core (a b : ℕ) (ha : 0 < a) (hb : 0 < b) :
    ∃ E : ℤ, (roundNat a b).2 = E ∧
      2 ^ 52 * (2 : ℚ) ^ E ≤ (a : ℚ) / b ∧ (a : ℚ) / b < 2 ^ 53 * (2 : ℚ) ^ E ∧
      ((roundNat a b).1 : ℤ) = rne ((a : ℚ) / b / (2 : ℚ) ^ E) := by
  obtain ⟨la1, la2⟩ := ilog2_spec a a ha le_rfl
  obtain ⟨lb1, lb2⟩ := ilog2_spec b b hb le_rfl
  have haq : (0 : ℚ) < a := by exact_mod_cast ha
  have hbq : (0 : ℚ) < b := by exact_mod_cast hb
  have qa1 : (2 : ℚ) ^ (ilog2 a a) ≤ a := by exact_mod_cast la1
  have qa2 : (a : ℚ) < 2 * (2 : ℚ) ^ (ilog2 a a) := by
    have : (a : ℚ) < (2 : ℚ) ^ (ilog2 a a + 1) := by exact_mod_cast la2
    rw [pow_succ] at this; linarith
  have qb1 : (2 : ℚ) ^ (ilog2 b b) ≤ b := by exact_mod_cast lb1
  have qb2 : (b : ℚ) < 2 * (2 : ℚ) ^ (ilog2 b b) := by
    have : (b : ℚ) < (2 : ℚ) ^ (ilog2 b b + 1) := by exact_mod_cast lb2
    rw [pow_succ] at this; linarith
  set A : ℚ := (2 : ℚ) ^ (ilog2 a a) with hA
  set B : ℚ := (2 : ℚ) ^ (ilog2 b b) with hB
  have hApos : 0 < A := by positivity
  have hBpos : 0 < B := by positivity
  set e0 : ℤ := (ilog2 a a : ℤ) - (ilog2 b b : ℤ) - 53 with he0
  have hE0 : (2 : ℚ) ^ e0 = A / (B * 2 ^ 53) := by
    rw [he0, zpow_sub₀ (by norm_num), zpow_sub₀ (by norm_num), zpow_natCast, zpow_natCast]
    rw [hA, hB]; norm_num; field_simp
  have hE0pos : (0 : ℚ) < (2 : ℚ) ^ e0 := by positivity
  -- the scaled quotient
  set t0 : ℚ := (a : ℚ) / b / (2 : ℚ) ^ e0 with ht0
  have ht0eq : t0 = a * B * 2 ^ 53 / (b * A) := by
    rw [ht0, hE0]; field_simp; ring
  have hbA : (0 : ℚ) < b * A := by positivity
  have ht0lo : 2 ^ 52 < t0 := by
    rw [ht0eq, lt_div_iff hbA]
    have h1 : (b : ℚ) * A < 2 * B * A := mul_lt_mul_of_pos_right qb2 hApos
    have h2 : 2 * B * A ≤ 2 * B * a := mul_le_mul_of_nonneg_left qa1 (by positivity)
    linarith
  have ht0hi : t0 < 2 ^ 54 := by
    rw [ht0eq, div_lt_iff hbA]
    have h1 : (a : ℚ) * B < 2 * A * B := mul_lt_mul_of_pos_right qa2 hBpos
    have h2 : 2 * A * B ≤ 2 * A * b := mul_le_mul_of_nonneg_left qb1 (by positivity)
    linarith
  set num : ℕ := if 0 ≤ e0 then a else a * 2 ^ (-e0).toNat with hnum
  set den0 : ℕ := if 0 ≤ e0 then b * 2 ^ e0.toNat else b with hden0
  have hden0pos : 0 < den0 := by
    rw [hden0]; split <;> positivity
  have hden0q : (0 : ℚ) < den0 := by exact_mod_cast hden0pos
  have hnd : (num : ℚ) / den0 = t0 := by
    rw [ht0, hnum, hden0]
    by_cases h : 0 ≤ e0
    · rw [if_pos h, if_pos h]
      have : (2 : ℚ) ^ e0 = (2 : ℚ) ^ e0.toNat := by
        rw [← zpow_natCast, Int.toNat_of_nonneg h]
      rw [this]; push_cast; field_simp
    · rw [if_neg h, if_neg h]
      have hn : 0 ≤ -e0 := by omega
      have : (2 : ℚ) ^ e0 = ((2 : ℚ) ^ (-e0).toNat)⁻¹ := by
        rw [← zpow_natCast, Int.toNat_of_nonneg hn, zpow_neg, inv_inv]
      rw [this]; push_cast; field_simp
  have hbig : (2 ^ 53 ≤ num / den0) ↔ (2 : ℚ) ^ 53 ≤ t0 := by
    rw [Nat.le_div_iff_mul_le hden0pos, ← hnd, le_div_iff hden0q]
    constructor
    · intro h; exact_mod_cast h
    · intro h; exact_mod_cast h
  have hab : (a : ℚ) / b = t0 * (2 : ℚ) ^ e0 := by rw [ht0]; field_simp; ring
  have hR : roundNat a b =
      (if 2 * (num % (if 2 ^ 53 ≤ num / den0 then 2 * den0 else den0)) <
            (if 2 ^ 53 ≤ num / den0 then 2 * den0 else den0) then
          num / (if 2 ^ 53 ≤ num / den0 then 2 * den0 else den0)
        else if (if 2 ^ 53 ≤ num / den0 then 2 * den0 else den0) <
            2 * (num % (if 2 ^ 53 ≤ num / den0 then 2 * den0 else den0)) then
          num / (if 2 ^ 53 ≤ num / den0 then 2 * den0 else den0) + 1
        else num / (if 2 ^ 53 ≤ num / den0 then 2 * den0 else den0) +
          num / (if 2 ^ 53 ≤ num / den0 then 2 * den0 else den0) % 2,
       if 2 ^ 53 ≤ num / den0 then e0 + 1 else e0) := by
    unfold roundNat
    rw [if_neg (by omega)]
    simp only [decide_eq_true_eq]
  rw [hR]
  by_cases hb53 : 2 ^ 53 ≤ num / den0
  · -- one more halving
    have ht := hbig.mp hb53
    simp only [if_pos hb53]
    have m1 := mul_le_mul_of_nonneg_right ht hE0pos.le
    have m2 := mul_lt_mul_of_pos_right ht0hi hE0pos
    refine ⟨e0 + 1, rfl, ?_, ?_, ?_⟩
    · rw [zpow_add_one₀ (by norm_num), hab]; linarith
    · rw [zpow_add_one₀ (by norm_num), hab]; linarith
    · have h2 : (a : ℚ) / b / (2 : ℚ) ^ (e0 + 1) = ((num : ℕ) : ℚ) / ((2 * den0 : ℕ) : ℚ) := by
        have e1 : (a : ℚ) / b / (2 : ℚ) ^ (e0 + 1) = t0 / 2 := by
          rw [zpow_add_one₀ (by norm_num), hab]; field_simp; ring
        rw [e1, ← hnd]; push_cast; field_simp; left; ring
      rw [h2, rne_natDiv num (2 * den0) (by omega)]
  · have ht : t0 < 2 ^ 53 := by
      by_contra h; push_neg at h; exact hb53 (hbig.mpr h)
    simp only [if_neg hb53]
    have m1 := mul_lt_mul_of_pos_right ht0lo hE0pos
    have m2 := mul_lt_mul_of_pos_right ht hE0pos
    refine ⟨e0, rfl, ?_, ?_, ?_⟩
    · rw [hab]; linarith
    · rw [hab]; linarith
    · have e1 : (a : ℚ) / b / (2 : ℚ) ^ e0 = (num : ℚ) / den0 := by rw [hnd]
      rw [e1, rne_natDiv num den0 hden0pos]

theorem two_zpow_pos (E : ℤ) : (0 : ℚ) < (2 : ℚ) ^ E := by positivity

theorem rne_two_pow (n : ℕ) : rne ((2 : ℚ) ^ n) = 2 ^ n := by
  have := rne_intCast (2 ^ n)
  push_cast at this
  exact this

theorem binade_unique {q : ℚ} {E F : ℤ}
    (h1 : 2 ^ 52 * (2 : ℚ) ^ E ≤ q) (h2 : q ≤ 2 ^ 53 * (2 : ℚ) ^ E)
    (h3 : 2 ^ 52 * (2 : ℚ) ^ F ≤ q) (h4 : q < 2 ^ 53 * (2 : ℚ) ^ F) :
    E = F ∨ (E + 1 = F ∧ q = 2 ^ 52 * (2 : ℚ) ^ F) := by
  have hE := two_zpow_pos E
  have hF := two_zpow_pos F
  have a1 : (2 : ℚ) ^ E < (2 : ℚ) ^ (F + 1) := by
    rw [zpow_add_one₀ (by norm_num)]; linarith
  have a2 : (2 : ℚ) ^ F ≤ (2 : ℚ) ^ (E + 1) := by
    rw [zpow_add_one₀ (by norm_num)]; linarith
  have b1 : E < F + 1 := (zpow_lt_zpow_iff_right₀ (by norm_num : (1 : ℚ) < 2)).mp a1
  have b2 : F ≤ E + 1 := (zpow_le_zpow_iff_right₀ (by norm_num : (1 : ℚ) < 2)).mp a2
  rcases (by omega : E = F ∨ E + 1 = F) with h | h
  · exact Or.inl h
  · refine Or.inr ⟨h, ?_⟩
    have : (2 : ℚ) ^ F = (2 : ℚ) ^ E * 2 := by
      rw [← h, zpow_add_one₀ (by norm_num)]
    rw [this] at h3 ⊢
    linarith

theorem isRN_of_binade {q v : ℚ} {F : ℤ}
    (h3 : 2 ^ 52 * (2 : ℚ) ^ F ≤ q) (h4 : q < 2 ^ 53 * (2 : ℚ) ^ F)
    (hv : v = rne (q / (2 : ℚ) ^ F) * (2 : ℚ) ^ F) : IsRN q v := by
  have hF := two_zpow_pos F
  constructor
  · intro h0
    rw [h0] at h3
    nlinarith
  · intro E h1 h2
    rcases binade_unique h1 h2 h3 h4 with h | ⟨h, hq⟩
    · rw [h]; exact hv
    · have hE := two_zpow_pos E
      have hFE : (2 : ℚ) ^ F = (2 : ℚ) ^ E * 2 := by
        rw [← h, zpow_add_one₀ (by norm_num)]
      have t1 : q / (2 : ℚ) ^ F = (2 : ℚ) ^ 52 := by
        rw [hq]; field_simp
      have t2 : q / (2 : ℚ) ^ E = (2 : ℚ) ^ 53 := by
        rw [hq, hFE]; field_simp; ring
      rw [hv, t1, t2, rne_two_pow, rne_two_pow, hFE]
      push_cast; ring

theorem roundNat_isRN (a b : ℕ) (hb : 0 < b) :
    IsRN ((a : ℚ) / b) ((roundNat a b).1 * (2 : ℚ) ^ (roundNat a b).2) := by
  rcases Nat.eq_zero_or_pos a with ha | ha
  · subst ha
    have : roundNat 0 b = (0, 0) := by unfold roundNat; simp
    rw [this]
    constructor
    · intro _; simp
    · intro E h1 _
      have := two_zpow_pos E
      simp at h1
      linarith
  · obtain ⟨E, hE, h1, h2, h3⟩ := roundNat_core a b ha hb
    apply isRN_of_binade (F := E) h1 h2
    rw [hE, ← h3]
    push_cast
    rfl

theorem exists_binade {q : ℚ} (hq : 0 < q) :
    ∃ F : ℤ, 2 ^ 52 * (2 : ℚ) ^ F ≤ q ∧ q < 2 ^ 53 * (2 : ℚ) ^ F := by
  obtain ⟨n, hn1, hn2⟩ := exists_mem_Ico_zpow (y := (2 : ℚ)) hq (by norm_num)
  refine ⟨n - 52, ?_, ?_⟩
  · have : (2 : ℚ) ^ 52 * (2 : ℚ) ^ (n - 52) = (2 : ℚ) ^ n := by
      rw [zpow_sub₀ (by norm_num)]; norm_num; field_simp
    rw [this]; exact hn1
  · have : (2 : ℚ) ^ 53 * (2 : ℚ) ^ (n - 52) = (2 : ℚ) ^ (n + 1) := by
      rw [zpow_sub₀ (by norm_num), zpow_add_one₀ (by norm_num)]; norm_num; ring
    rw [this]; exact hn2

theorem IsRN.bounds {q v : ℚ} {F : ℤ} (h : IsRN q v)
    (h1 : 2 ^ 52 * (2 : ℚ) ^ F ≤ q) (h2 : q ≤ 2 ^ 53 * (2 : ℚ) ^ F) :
    2 ^ 52 * (2 : ℚ) ^ F ≤ v ∧ v ≤ 2 ^ 53 * (2 : ℚ) ^ F := by
  have hF := two_zpow_pos F
  have hv := h.2 F h1 h2
  have t1 : (2 : ℚ) ^ 52 ≤ q / (2 : ℚ) ^ F := by rw [le_div_iff hF]; exact h1
  have t2 : q / (2 : ℚ) ^ F ≤ (2 : ℚ) ^ 53 := by rw [div_le_iff hF]; exact h2
  have r1 := rne_mono t1
  have r2 := rne_mono t2
  rw [rne_two_pow] at r1 r2
  have r1q : ((2 : ℚ) ^ 52) ≤ (rne (q / (2 : ℚ) ^ F) : ℚ) := by exact_mod_cast r1
  have r2q : (rne (q / (2 : ℚ) ^ F) : ℚ) ≤ ((2 : ℚ) ^ 53) := by exact_mod_cast r2
  rw [hv]
  constructor
  · exact mul_le_mul_of_nonneg_right r1q hF.le
  · exact mul_le_mul_of_nonneg_right r2q hF.le

theorem IsRN.pos {q v : ℚ} (h : IsRN q v) (hq : 0 < q) : 0 < v := by
  obtain ⟨F, h1, h2⟩ := exists_binade hq
  have := (h.bounds h1 h2.le).1
  have hF := two_zpow_pos F
  have : (0 : ℚ) < 2 ^ 52 * (2 : ℚ) ^ F := by positivity
  linarith

theorem IsRN.nonneg {q v : ℚ} (h : IsRN q v) (hq : 0 ≤ q) : 0 ≤ v := by
  rcases eq_or_lt_of_le hq with h0 | h0
  · rw [h.1 h0.symm]
  · exact (h.pos h0).le

theorem IsRN.unique {q v w : ℚ} (h : IsRN q v) (h' : IsRN q w) (hq : 0 ≤ q) : v = w := by
  rcases eq_or_lt_of_le hq with h0 | h0
  · rw [h.1 h0.symm, h'.1 h0.symm]
  · obtain ⟨F, h1, h2⟩ := exists_binade h0
    rw [h.2 F h1 h2.le, h'.2 F h1 h2.le]

theorem IsRN.mono {q₁ q₂ v₁ v₂ : ℚ} (h₁ : IsRN q₁ v₁) (h₂ : IsRN q₂ v₂)
    (h0 : 0 ≤ q₁) (hle : q₁ ≤ q₂) : v₁ ≤ v₂ := by
  rcases eq_or_lt_of_le h0 with h0 | h0
  · rw [h₁.1 h0.symm]
    exact h₂.nonneg (by linarith)
  · have h0' : 0 < q₂ := by linarith
    obtain ⟨F₁, a1, a2⟩ := exists_binade h0
    obtain ⟨F₂, b1, b2⟩ := exists_binade h0'
    have hF1 := two_zpow_pos F₁
    have hF2 := two_zpow_pos F₂
    rcases lt_trichotomy F₁ F₂ with hlt | heq | hgt
    · have c1 := (h₁.bounds a1 a2.le).2
      have c2 := (h₂.bounds b1 b2.le).1
      have : (2 : ℚ) ^ (F₁ + 1) ≤ (2 : ℚ) ^ F₂ :=
        zpow_le_zpow_right₀ (by norm_num) (by omega)
      rw [zpow_add_one₀ (by norm_num)] at this
      linarith
    · subst heq
      rw [h₁.2 F₁ a1 a2.le, h₂.2 F₁ b1 b2.le]
      apply mul_le_mul_of_nonneg_right _ hF1.le
      have : q₁ / (2 : ℚ) ^ F₁ ≤ q₂ / (2 : ℚ) ^ F₁ := by
        apply div_le_div_of_nonneg_right hle hF1.le
      exact_mod_cast rne_mono this
    · exfalso
      have : (2 : ℚ) ^ (F₂ + 1) ≤ (2 : ℚ) ^ F₁ :=
        zpow_le_zpow_right₀ (by norm_num) (by omega)
      rw [zpow_add_one₀ (by norm_num)] at this
      linarith

/-- Numbers with at most 53 significant bits are left alone by the rounding. -/
theorem isRN_self (K : ℕ) (E₀ : ℤ) (hK : K ≤ 2 ^ 53) :
    IsRN ((K : ℚ) * (2 : ℚ) ^ E₀) ((K : ℚ) * (2 : ℚ) ^ E₀) := by
  have hE0 := two_zpow_pos E₀
  have hKq : (K : ℚ) ≤ 2 ^ 53 := by exact_mod_cast hK
  refine ⟨fun h => h, ?_⟩
  intro E h1 h2
  have hE := two_zpow_pos E
  have a1 : (2 : ℚ) ^ E ≤ (2 : ℚ) ^ (E₀ + 1) := by
    rw [zpow_add_one₀ (by norm_num)]
    have : (K : ℚ) * (2 : ℚ) ^ E₀ ≤ 2 ^ 53 * (2 : ℚ) ^ E₀ :=
      mul_le_mul_of_nonneg_right hKq hE0.le
    linarith
  have b1 : E ≤ E₀ + 1 := (zpow_le_zpow_iff_right₀ (by norm_num : (1 : ℚ) < 2)).mp a1
  rcases (by omega : E ≤ E₀ ∨ E = E₀ + 1) with h | h
  · obtain ⟨n, hn⟩ : ∃ n : ℕ, E₀ = E + n := ⟨(E₀ - E).toNat, by omega⟩
    have e1 : (K : ℚ) * (2 : ℚ) ^ E₀ / (2 : ℚ) ^ E = ((K * 2 ^ n : ℤ) : ℚ) := by
      rw [hn, zpow_add₀ (by norm_num), zpow_natCast]; push_cast; field_simp; ring
    rw [e1, rne_intCast, hn, zpow_add₀ (by norm_num), zpow_natCast]
    push_cast; ring
  · have hK2 : (2 : ℚ) ^ 53 ≤ K := by
      rw [h, zpow_add_one₀ (by norm_num)] at h1
      have : (2 : ℚ) ^ 53 * (2 : ℚ) ^ E₀ ≤ K * (2 : ℚ) ^ E₀ := by linarith
      exact le_of_mul_le_mul_right this hE0
    have hKeq : (K : ℚ) = 2 ^ 53 := le_antisymm hKq hK2
    have e1 : (K : ℚ) * (2 : ℚ) ^ E₀ / (2 : ℚ) ^ E = (2 : ℚ) ^ 52 := by
      rw [h, zpow_add_one₀ (by norm_num), hKeq]; field_simp; ring
    rw [e1, rne_two_pow, h, zpow_add_one₀ (by norm_num), hKeq]
    push_cast; ring

theorem IsRN.eq_of_rep {q v : ℚ} (h : IsRN q v) (K : ℕ) (E₀ : ℤ) (hK : K ≤ 2 ^ 53)
    (hq : q = (K : ℚ) * (2 : ℚ) ^ E₀) : v = q := by
  have hs := isRN_self K E₀ hK
  rw [← hq] at hs
  exact h.unique hs (by rw [hq]; have := two_zpow_pos E₀; positivity)

theorem IsRN.relerr {q v : ℚ} (h : IsRN q v) (hq : 0 < q) : |v - q| ≤ q / 2 ^ 53 := by
  obtain ⟨F, h1, h2⟩ := exists_binade hq
  have hF := two_zpow_pos F
  have hv := h.2 F h1 h2.le
  have hn := rne_near (q / (2 : ℚ) ^ F)
  have e : v - q = ((rne (q / (2 : ℚ) ^ F) : ℚ) - q / (2 : ℚ) ^ F) * (2 : ℚ) ^ F := by
    rw [hv]; field_simp
  rw [e, abs_mul, abs_of_pos hF]
  have : |(rne (q / (2 : ℚ) ^ F) : ℚ) - q / (2 : ℚ) ^ F| * (2 : ℚ) ^ F ≤ 1 / 2 * (2 : ℚ) ^ F :=
    mul_le_mul_of_nonneg_right hn hF.le
  rw [le_div_iff (by positivity)]
  nlinarith

theorem IsRN.scale {q v : ℚ} (h : IsRN q v) (k : ℤ) :
    IsRN (q * (2 : ℚ) ^ k) (v * (2 : ℚ) ^ k) := by
  have hk := two_zpow_pos k
  constructor
  · intro h0
    have : q = 0 := by
      rcases mul_eq_zero.mp h0 with h | h
      · exact h
      · exact absurd h hk.ne'
    rw [h.1 this]; simp
  · intro E h1 h2
    have hE := two_zpow_pos E
    have hEk : (2 : ℚ) ^ E = (2 : ℚ) ^ (E - k) * (2 : ℚ) ^ k := by
      rw [← zpow_add₀ (by norm_num)]; congr 1; ring
    have hEkpos := two_zpow_pos (E - k)
    have a1 : 2 ^ 52 * (2 : ℚ) ^ (E - k) ≤ q := by
      rw [hEk, ← mul_assoc] at h1
      exact le_of_mul_le_mul_right h1 hk
    have a2 : q ≤ 2 ^ 53 * (2 : ℚ) ^ (E - k) := by
      rw [hEk, ← mul_assoc] at h2
      exact le_of_mul_le_mul_right h2 hk
    rw [h.2 (E - k) a1 a2]
    have : q * (2 : ℚ) ^ k / (2 : ℚ) ^ E = q / (2 : ℚ) ^ (E - k) := by
      rw [hEk]; field_simp; ring
    rw [this, hEk]; ring

theorem round_isRN (num : Int) (den : Nat) (sh : Int) (h0 : 0 ≤ num) (hd : 0 < den) :
    IsRN ((num : ℚ) / den * (2 : ℚ) ^ sh) (F64.round num den sh).toQ := by
  have h := (roundNat_isRN num.natAbs den hd).scale sh
  have hn : ((num.natAbs : ℕ) : ℚ) = (num : ℚ) := by
    rw [Nat.cast_natAbs, abs_of_nonneg h0]
  rw [hn] at h
  have hv : (F64.round num den sh).toQ =
      ((roundNat num.natAbs den).1 : ℚ) * (2 : ℚ) ^ (roundNat num.natAbs den).2 * (2 : ℚ) ^ sh := by
    unfold F64.round F64.toQ
    simp only [if_neg (not_lt.mpr h0)]
    rw [zpow_add₀ (by norm_num)]
    push_cast; ring
  rw [hv]; exact h

theorem round_m_nonneg (num : Int) (den : Nat) (sh : Int) (h0 : 0 ≤ num) :
    0 ≤ (F64.round num den sh).m := by
  unfold F64.round
  simp only [if_neg (not_lt.mpr h0)]
  exact Int.natCast_nonneg _

theorem toQ_nonneg {x : F64} (h : 0 ≤ x.m) : 0 ≤ x.toQ := by
  unfold F64.toQ
  have := two_zpow_pos x.e
  have : (0 : ℚ) ≤ x.m := by exact_mod_cast h
  positivity

theorem m_pos_of_toQ_pos {x : F64} (h : 0 < x.toQ) : 0 < x.m := by
  unfold F64.toQ at h
  have h2 := two_zpow_pos x.e
  have : (0 : ℚ) < x.m := by
    by_contra hc
    push_neg at hc
    have : (x.m : ℚ) * (2 : ℚ) ^ x.e ≤ 0 := mul_nonpos_of_nonpos_of_nonneg hc h2.le
    linarith
  exact_mod_cast this

theorem ofInt_isRN (i : Int) (h0 : 0 ≤ i) : IsRN (i : ℚ) (F64.ofInt i).toQ := by
  have := round_isRN i 1 0 h0 (by norm_num)
  simpa using this

theorem ofInt_m_nonneg (i : Int) (h0 : 0 ≤ i) : 0 ≤ (F64.ofInt i).m :=
  round_m_nonneg i 1 0 h0

theorem ofInt_exact (i : Int) (h0 : 0 ≤ i) (h1 : i ≤ 2 ^ 53) : (F64.ofInt i).toQ = i := by
  apply (ofInt_isRN i h0).eq_of_rep i.toNat 0
  · have : (i.toNat : ℤ) = i := Int.toNat_of_nonneg h0
    omega
  · have : ((i.toNat : ℕ) : ℤ) = i := Int.toNat_of_nonneg h0
    have : ((i.toNat : ℕ) : ℚ) = (i : ℚ) := by exact_mod_cast this
    rw [this]; simp

theorem mul_isRN (x y : F64) (hx : 0 ≤ x.m) (hy : 0 ≤ y.m) :
    IsRN (x.toQ * y.toQ) (F64.mul x y).toQ := by
  have := round_isRN (x.m * y.m) 1 (x.e + y.e) (mul_nonneg hx hy) (by norm_num)
  have e : ((x.m * y.m : ℤ) : ℚ) / ((1 : ℕ) : ℚ) * (2 : ℚ) ^ (x.e + y.e) = x.toQ * y.toQ := by
    unfold F64.toQ
    rw [zpow_add₀ (by norm_num)]; push_cast; ring
  rw [e] at this
  exact this

theorem mul_m_nonneg (x y : F64) (hx : 0 ≤ x.m) (hy : 0 ≤ y.m) : 0 ≤ (F64.mul x y).m :=
  round_m_nonneg _ 1 _ (mul_nonneg hx hy)

theorem div_isRN (x y : F64) (hx : 0 ≤ x.m) (hy : 0 < y.m) :
    IsRN (x.toQ / y.toQ) (F64.div x y).toQ := by
  have hd : 0 < y.m.natAbs := Int.natAbs_pos.mpr hy.ne'
  have := round_isRN x.m y.m.natAbs (x.e - y.e) hx hd
  have hn : ((y.m.natAbs : ℕ) : ℚ) = (y.m : ℚ) := by
    rw [Nat.cast_natAbs, abs_of_nonneg hy.le]
  have hyq : (0 : ℚ) < y.m := by exact_mod_cast hy
  have e : (x.m : ℚ) / ((y.m.natAbs : ℕ) : ℚ) * (2 : ℚ) ^ (x.e - y.e) = x.toQ / y.toQ := by
    unfold F64.toQ
    rw [hn, zpow_sub₀ (by norm_num)]
    have := two_zpow_pos y.e
    field_simp
  rw [e] at this
  unfold F64.div
  rw [if_neg (not_lt.mpr hy.le)]
  exact this

theorem div_m_nonneg (x y : F64) (hx : 0 ≤ x.m) (hy : 0 < y.m) : 0 ≤ (F64.div x y).m := by
  unfold F64.div
  rw [if_neg (not_lt.mpr hy.le)]
  exact round_m_nonneg _ _ _ hx

theorem wrap64_id (x : Int) (h1 : -2 ^ 63 ≤ x) (h2 : x < 2 ^ 63) : wrap64 x = x := by
  unfold wrap64
  omega

theorem toInt64_id (v : Int) (h1 : -2 ^ 63 ≤ v) (h2 : v < 2 ^ 63) : toInt64 v = v := by
  unfold toInt64
  rw [if_pos ⟨h1, h2⟩]

theorem ceil_eq (x : F64) : F64.ceil x = toInt64 ⌈x.toQ⌉ := by
  unfold F64.ceil
  congr 1
  unfold F64.toQ
  by_cases h : 0 ≤ x.e
  · rw [if_pos h]
    have : (2 : ℚ) ^ x.e = (2 : ℚ) ^ x.e.toNat := by
      rw [← zpow_natCast, Int.toNat_of_nonneg h]
    rw [this]
    have : (x.m : ℚ) * (2 : ℚ) ^ x.e.toNat = ((x.m * 2 ^ x.e.toNat : ℤ) : ℚ) := by push_cast; ring
    rw [this, Int.ceil_intCast]
  · rw [if_neg h]
    have hn : 0 ≤ -x.e := by omega
    have : (2 : ℚ) ^ x.e = ((2 : ℚ) ^ (-x.e).toNat)⁻¹ := by
      rw [← zpow_natCast, Int.toNat_of_nonneg hn, zpow_neg, inv_inv]
    rw [this]
    have e2 : (x.m : ℚ) * ((2 : ℚ) ^ (-x.e).toNat)⁻¹
        = -(((-x.m : ℤ) : ℚ) / ((2 ^ (-x.e).toNat : ℕ) : ℚ)) := by
      push_cast; field_simp
    rw [e2, Int.ceil_neg, Rat.floor_intCast_div_natCast]
    push_cast; rfl

theorem toInt_eq (x : F64) (hx : 0 ≤ x.m) : F64.toInt x = toInt64 ⌊x.toQ⌋ := by
  unfold F64.toInt
  congr 1
  unfold F64.toQ
  by_cases h : 0 ≤ x.e
  · rw [if_pos h]
    have : (2 : ℚ) ^ x.e = (2 : ℚ) ^ x.e.toNat := by
      rw [← zpow_natCast, Int.toNat_of_nonneg h]
    rw [this]
    have : (x.m : ℚ) * (2 : ℚ) ^ x.e.toNat = ((x.m * 2 ^ x.e.toNat : ℤ) : ℚ) := by push_cast; ring
    rw [this, Int.floor_intCast]
  · rw [if_neg h]
    have hn : 0 ≤ -x.e := by omega
    have : (2 : ℚ) ^ x.e = ((2 : ℚ) ^ (-x.e).toNat)⁻¹ := by
      rw [← zpow_natCast, Int.toNat_of_nonneg hn, zpow_neg, inv_inv]
    rw [this]
    have e2 : (x.m : ℚ) * ((2 : ℚ) ^ (-x.e).toNat)⁻¹
        = ((x.m : ℤ) : ℚ) / ((2 ^ (-x.e).toNat : ℕ) : ℚ) := by
      push_cast; field_simp
    rw [e2, Rat.floor_intCast_div_natCast, Int.tdiv_eq_ediv hx (by positivity)]
    push_cast; rfl

theorem cities_length : (cities.length : Int) = 12 := rfl

theorem cityForRow_some (n r : Int) (hn : 12 ≤ n) :
    cityDistributor.cityForRow ⟨n⟩ r
      = some (F64.toInt (F64.div (F64.ofInt r) (numPerCity n))) := by
  unfold cityDistributor.cityForRow numPerCity
  rw [if_neg (by rw [cities_length]; simp only []; omega)]

theorem rowsForCity_some (n c : Int) (hn : 12 ≤ n) :
    cityDistributor.rowsForCity ⟨n⟩ c
      = some (if F64.ceil (F64.mul (F64.ofInt c) (numPerCity n)) ≥ n then n
              else F64.ceil (F64.mul (F64.ofInt c) (numPerCity n)),
             if F64.ceil (F64.mul (F64.ofInt (c + 1)) (numPerCity n)) ≥ n then n
              else F64.ceil (F64.mul (F64.ofInt (c + 1)) (numPerCity n))) := by
  unfold cityDistributor.rowsForCity numPerCity
  rw [if_neg (by rw [cities_length]; simp only []; omega)]

theorem ofInt_twelve : (F64.ofInt (cities.length : Int)).toQ = 12 := by
  rw [cities_length]
  have := ofInt_exact 12 (by norm_num) (by norm_num)
  simpa using this

theorem ofInt_twelve_m : 0 < (F64.ofInt (cities.length : Int)).m := by decide

/-- The rounded `float64(numRows)` and the rounded quotient by twelve. -/
theorem numPerCity_spec (n : Int) (hn : 12 ≤ n) :
    IsRN ((F64.ofInt n).toQ / 12) (numPerCity n).toQ ∧ 0 < (numPerCity n).m ∧
      IsRN (n : ℚ) (F64.ofInt n).toQ := by
  have h0 : (0 : ℤ) ≤ n := by omega
  have h1 := ofInt_isRN n h0
  have h2 := div_isRN (F64.ofInt n) (F64.ofInt (cities.length : Int)) (ofInt_m_nonneg n h0)
    ofInt_twelve_m
  rw [ofInt_twelve] at h2
  have hnq : (0 : ℚ) < n := by exact_mod_cast (by omega : (0 : ℤ) < n)
  have hpos : 0 < (F64.ofInt n).toQ := h1.pos hnq
  refine ⟨h2, ?_, h1⟩
  apply m_pos_of_toQ_pos
  exact h2.pos (by positivity)

theorem numPerCity_pos (n : Int) (hn : 12 ≤ n) : 0 < (numPerCity n).toQ := by
  obtain ⟨h2, _, h1⟩ := numPerCity_spec n hn
  have hnq : (0 : ℚ) < n := by exact_mod_cast (by omega : (0 : ℤ) < n)
  have hpos : 0 < (F64.ofInt n).toQ := h1.pos hnq
  exact h2.pos (by positivity)

/-- The quotient `float64(rowIdx) / numPerCity` of a row of the table rounds
to at most 13, far inside the range of `int`. -/
theorem quot_le_thirteen (n r : Int) (Q : ℚ) (hn : 12 ≤ n) (hr : 0 ≤ r) (hrn : r < n)
    (hQ : IsRN ((F64.ofInt r).toQ / (numPerCity n).toQ) Q) : 0 ≤ Q ∧ Q ≤ 13 := by
  obtain ⟨hP, _, hfn⟩ := numPerCity_spec n hn
  have hPpos := numPerCity_pos n hn
  have hrq : (0 : ℚ) ≤ r := by exact_mod_cast hr
  have hrn' : (r : ℚ) ≤ n := by exact_mod_cast hrn.le
  have hnq : (0 : ℚ) < n := by exact_mod_cast (by omega : (0 : ℤ) < n)
  have hfr := ofInt_isRN r hr
  have hfr0 := hfr.nonneg hrq
  have hle := hfr.mono hfn hrq hrn'
  have hfnpos := hfn.pos hnq
  have hrel := hP.relerr (by positivity)
  rw [abs_le] at hrel
  have hq0 : 0 ≤ (F64.ofInt r).toQ / (numPerCity n).toQ := by positivity
  have h53 : (F64.ofInt n).toQ / 12 / 2 ^ 53 ≤ (F64.ofInt n).toQ / 12 / 13 := by
    apply div_le_div_of_nonneg_left (by positivity) (by norm_num) (by norm_num)
  have hq13 : (F64.ofInt r).toQ / (numPerCity n).toQ ≤ 13 := by
    rw [div_le_iff hPpos]
    have e : (F64.ofInt n).toQ / 12 / 13 = (F64.ofInt n).toQ / 156 := by ring
    rw [e] at h53
    linarith
  have hs := isRN_self 13 0 (by norm_num)
  have e13 : ((13 : ℕ) : ℚ) * (2 : ℚ) ^ (0 : ℤ) = 13 := by norm_num
  rw [e13] at hs
  exact ⟨hQ.nonneg hq0, hQ.mono hs hq0 hq13⟩

/-- What `cityForRow` returns for a row of the table, as a floor of a rounded
quotient. -/
theorem cityForRow_spec (n r : Int) (hn : 12 ≤ n) (hr : 0 ≤ r) (hrn : r < n) :
    ∃ Q : ℚ, IsRN ((F64.ofInt r).toQ / (numPerCity n).toQ) Q ∧
      cityDistributor.cityForRow ⟨n⟩ r = some ⌊Q⌋ := by
  obtain ⟨_, hm, _⟩ := numPerCity_spec n hn
  have hQ := div_isRN _ _ (ofInt_m_nonneg r hr) hm
  obtain ⟨hQ0, hQ13⟩ := quot_le_thirteen n r _ hn hr hrn hQ
  refine ⟨(F64.div (F64.ofInt r) (numPerCity n)).toQ, hQ, ?_⟩
  rw [cityForRow_some n r hn, toInt_eq _ (div_m_nonneg _ _ (ofInt_m_nonneg r hr) hm)]
  have h1 : 0 ≤ ⌊(F64.div (F64.ofInt r) (numPerCity n)).toQ⌋ := Int.floor_nonneg.mpr hQ0
  have h2 : ⌊(F64.div (F64.ofInt r) (numPerCity n)).toQ⌋ < 14 := by
    rw [Int.floor_lt]
    push_cast
    linarith
  rw [toInt64_id _ (by omega) (by omega)]

/-- Up to `2 ^ 62` rows the product `float64(c) * numPerCity` of a city
`c ≤ 12` rounds to at most `3 * 2 ^ 61`, inside the range of `int`. -/
theorem prod_le (n c : Int) (A : ℚ) (hn : 12 ≤ n) (hb : n ≤ 2 ^ 62) (hc : 0 ≤ c)
    (hc12 : c ≤ 12) (hA : IsRN ((F64.ofInt c).toQ * (numPerCity n).toQ) A) :
    0 ≤ A ∧ A ≤ 3 * 2 ^ 61 := by
  obtain ⟨hP, _, hfn⟩ := numPerCity_spec n hn
  have hPpos := numPerCity_pos n hn
  have hnq : (0 : ℚ) < n := by exact_mod_cast (by omega : (0 : ℤ) < n)
  have hnb : (n : ℚ) ≤ 2 ^ 62 := by exact_mod_cast hb
  have hcq : (0 : ℚ) ≤ c := by exact_mod_cast hc
  have hcq12 : (c : ℚ) ≤ 12 := by exact_mod_cast hc12
  have hfnpos := hfn.pos hnq
  have hs := isRN_self 1 62 (by norm_num)
  have e62 : ((1 : ℕ) : ℚ) * (2 : ℚ) ^ (62 : ℤ) = 2 ^ 62 := by norm_num
  rw [e62] at hs
  have hfnb := hfn.mono hs hnq.le hnb
  have hrel := hP.relerr (by positivity)
  rw [abs_le] at hrel
  rw [ofInt_exact c hc (by omega)] at hA
  have hq0 : 0 ≤ (c : ℚ) * (numPerCity n).toQ := by positivity
  have hPb : (numPerCity n).toQ ≤ 2 ^ 59 := by
    have h53 : (F64.ofInt n).toQ / 12 / 2 ^ 53 ≤ (F64.ofInt n).toQ / 12 / 2 := by
      apply div_le_div_of_nonneg_left (by positivity) (by norm_num) (by norm_num)
    have e : (F64.ofInt n).toQ / 12 / 2 = (F64.ofInt n).toQ / 24 := by ring
    rw [e] at h53
    have : (F64.ofInt n).toQ / 12 + (F64.ofInt n).toQ / 24 ≤ 2 ^ 62 / 12 + 2 ^ 62 / 24 := by
      linarith
    have e2 : (2 : ℚ) ^ 62 / 12 + 2 ^ 62 / 24 = 2 ^ 59 := by norm_num
    rw [e2] at this
    linarith
  have hq : (c : ℚ) * (numPerCity n).toQ ≤ 3 * 2 ^ 61 := by
    have h1 : (c : ℚ) * (numPerCity n).toQ ≤ 12 * (numPerCity n).toQ :=
      mul_le_mul_of_nonneg_right hcq12 hPpos.le
    have e3 : (12 : ℚ) * 2 ^ 59 = 3 * 2 ^ 61 := by norm_num
    linarith
  have hs3 := isRN_self 3 61 (by norm_num)
  have e3 : ((3 : ℕ) : ℚ) * (2 : ℚ) ^ (61 : ℤ) = 3 * 2 ^ 61 := by norm_num
  rw [e3] at hs3
  exact ⟨hA.nonneg hq0, hA.mono hs3 hq0 hq⟩

/-- What the raw bound is, up to `2 ^ 62` rows and for a city `c ≤ 12`: the
ceiling of a rounded product. -/
theorem rawBound_spec (n c : Int) (hn : 12 ≤ n) (hb : n ≤ 2 ^ 62) (hc : 0 ≤ c)
    (hc12 : c ≤ 12) :
    ∃ A : ℚ, IsRN ((F64.ofInt c).toQ * (numPerCity n).toQ) A ∧ rawBound n c = ⌈A⌉ := by
  obtain ⟨_, hm, _⟩ := numPerCity_spec n hn
  have hA := mul_isRN _ _ (ofInt_m_nonneg c hc) hm.le
  obtain ⟨hA0, hAb⟩ := prod_le n c _ hn hb hc hc12 hA
  refine ⟨(F64.mul (F64.ofInt c) (numPerCity n)).toQ, hA, ?_⟩
  unfold rawBound
  rw [ceil_eq]
  have h1 : 0 ≤ ⌈(F64.mul (F64.ofInt c) (numPerCity n)).toQ⌉ := Int.ceil_nonneg hA0
  have h2 : ⌈(F64.mul (F64.ofInt c) (numPerCity n)).toQ⌉ ≤ 3 * 2 ^ 61 := by
    rw [Int.ceil_le]
    push_cast
    linarith
  rw [toInt64_id _ (by omega) (by omega)]

theorem rowsForCity_raw (n c : Int) (hn : 12 ≤ n) :
    cityDistributor.rowsForCity ⟨n⟩ c
      = some (if rawBound n c ≥ n then n else rawBound n c,
             if rawBound n (c + 1) ≥ n then n else rawBound n (c + 1)) :=
  rowsForCity_some n c hn

theorem rawBound_mono (n c c' : Int) (hn : 12 ≤ n) (hb : n ≤ 2 ^ 62) (hc : 0 ≤ c)
    (hcc : c ≤ c') (hc12 : c' ≤ 12) :
    rawBound n c ≤ rawBound n c' := by
  obtain ⟨A, hA, eA⟩ := rawBound_spec n c hn hb hc (by omega)
  obtain ⟨B, hB, eB⟩ := rawBound_spec n c' hn hb (by omega) hc12
  rw [eA, eB]
  apply Int.ceil_mono
  have hP := numPerCity_pos n hn
  have h1 := ofInt_isRN c hc
  have h2 := ofInt_isRN c' (by omega)
  have hcq : (0 : ℚ) ≤ c := by exact_mod_cast hc
  have hle : (c : ℚ) ≤ c' := by exact_mod_cast hcc
  have hf := h1.mono h2 hcq hle
  have hf0 := h1.nonneg hcq
  exact hA.mono hB (by positivity) (mul_le_mul_of_nonneg_right hf hP.le)

theorem rawBound_zero (n : Int) (hn : 12 ≤ n) (hb : n ≤ 2 ^ 62) : rawBound n 0 = 0 := by
  obtain ⟨A, hA, eA⟩ := rawBound_spec n 0 hn hb le_rfl (by norm_num)
  have h0 : (F64.ofInt 0).toQ = 0 := by
    have := ofInt_exact 0 le_rfl (by norm_num)
    simpa using this
  rw [h0, zero_mul] at hA
  rw [eA, hA.1 rfl]
  simp

theorem cityForRow_mono (n i j : Int) (hn : 12 ≤ n) (hi : 0 ≤ i) (hij : i ≤ j)
    (hj : j < n) :
    ∃ a b : Int, cityDistributor.cityForRow ⟨n⟩ i = some a ∧
      cityDistributor.cityForRow ⟨n⟩ j = some b ∧ a ≤ b := by
  obtain ⟨Qi, hQi, ei⟩ := cityForRow_spec n i hn hi (by omega)
  obtain ⟨Qj, hQj, ej⟩ := cityForRow_spec n j hn (by omega) hj
  refine ⟨⌊Qi⌋, ⌊Qj⌋, ei, ej, ?_⟩
  apply Int.floor_mono
  have hP := numPerCity_pos n hn
  have h1 := ofInt_isRN i hi
  have h2 := ofInt_isRN j (by omega)
  have hiq : (0 : ℚ) ≤ i := by exact_mod_cast hi
  have hle : (i : ℚ) ≤ j := by exact_mod_cast hij
  have hf := h1.mono h2 hiq hle
  have hf0 := h1.nonneg hiq
  exact hQi.mono hQj (by positivity) (div_le_div_of_nonneg_right hf hP.le)

theorem IsRN.relerr0 {q v : ℚ} (h : IsRN q v) (hq : 0 ≤ q) : |v - q| ≤ q / 2 ^ 53 := by
  rcases eq_or_lt_of_le hq with h0 | h0
  · rw [h.1 h0.symm, ← h0]; simp
  · exact h.relerr h0

/-- Rounding to a neighbour with an even mantissa: a value of the binade with
exponent `G` that lies within half a unit in the last place of `J * 2 ^ G`,
`J` even, is rounded to it. -/
theorem IsRN.eq_even {q v z : ℚ} {G J : ℤ} (h : IsRN q v)
    (h1 : 2 ^ 52 * (2 : ℚ) ^ G ≤ q) (h2 : q ≤ 2 ^ 53 * (2 : ℚ) ^ G)
    (hz : z = (J : ℚ) * (2 : ℚ) ^ G) (hJ : J % 2 = 0)
    (hn : |q - z| ≤ (2 : ℚ) ^ G / 2) : v = z := by
  have hG := two_zpow_pos G
  rw [h.2 G h1 h2, hz]
  congr 1
  have : rne (q / (2 : ℚ) ^ G) = J := by
    apply rne_eq_of_le _ _ hJ
    have e : q / (2 : ℚ) ^ G - J = (q - z) / (2 : ℚ) ^ G := by
      rw [hz]; field_simp; ring
    rw [e, abs_div, abs_of_pos hG, div_le_iff hG]
    linarith
  exact_mod_cast this

theorem zpow_neg_eight_le {F : ℤ} (h : F ≤ -8) : (2 : ℚ) ^ F ≤ 1 / 256 := by
  have h8 : (2 : ℚ) ^ F ≤ (2 : ℚ) ^ (-8 : ℤ) :=
    zpow_le_zpow_right₀ (by norm_num : (1 : ℚ) ≤ 2) h
  have e : (2 : ℚ) ^ (-8 : ℤ) = 1 / 256 := by norm_num [zpow_neg]
  rw [e] at h8
  exact h8

/-- Shape of `numPerCity` for at most `2 ^ 48` rows: twelve times its value
misses `numRows` by `4 * σ` units in the last place, `σ ∈ {-1, 0, 1}`, and by
nothing when three divides `numRows`. -/
theorem npc_structure (n : Int) (hn : 12 ≤ n) (hb : n ≤ 2 ^ 48) :
    ∃ (F σ : ℤ), F ≤ -8 ∧ 2 ^ 52 * (2 : ℚ) ^ F ≤ (n : ℚ) / 12 ∧
      12 * (numPerCity n).toQ = n + 4 * σ * (2 : ℚ) ^ F ∧
      (σ = -1 ∨ σ = 0 ∨ σ = 1) ∧ (σ ≠ 0 → ¬ (3 ∣ n)) := by
  obtain ⟨hP, _, _⟩ := numPerCity_spec n hn
  rw [ofInt_exact n (by omega) (by omega)] at hP
  have hn12 : (12 : ℚ) ≤ n := by exact_mod_cast hn
  have hn48 : (n : ℚ) ≤ 2 ^ 48 := by exact_mod_cast hb
  obtain ⟨F, h1, h2⟩ := exists_binade (q := (n : ℚ) / 12) (by positivity)
  have hF := two_zpow_pos F
  have hF8 : F ≤ -8 := by
    by_contra hc
    have : (2 : ℚ) ^ (-7 : ℤ) ≤ (2 : ℚ) ^ F :=
      zpow_le_zpow_right₀ (by norm_num) (by omega)
    have e : (2 : ℚ) ^ (-7 : ℤ) = 1 / 128 := by norm_num [zpow_neg]
    rw [e] at this
    nlinarith
  obtain ⟨m, hm⟩ : ∃ m : ℕ, F = -(m : ℤ) - 2 := ⟨(-F - 2).toNat, by omega⟩
  have hFm : (2 : ℚ) ^ F = ((2 : ℚ) ^ m * 4)⁻¹ := by
    rw [hm, zpow_sub₀ (by norm_num), zpow_neg, zpow_natCast]
    norm_num; field_simp; ring
  have h2m : (0 : ℚ) < (2 : ℚ) ^ m := by positivity
  set T : ℤ := n * 2 ^ m with hT
  have hq : (n : ℚ) / 12 / (2 : ℚ) ^ F = (T : ℚ) / 3 := by
    rw [hFm, hT]; push_cast; field_simp; ring
  have hPv := hP.2 F h1 h2.le
  rw [hq] at hPv
  set M : ℤ := rne ((T : ℚ) / 3) with hM
  have hnear := rne_near ((T : ℚ) / 3)
  rw [← hM, abs_le] at hnear
  have b1 : ((3 * M - T : ℤ) : ℚ) < 2 := by push_cast; linarith
  have b2 : (-2 : ℚ) < ((3 * M - T : ℤ) : ℚ) := by push_cast; linarith
  have c1 : 3 * M - T < 2 := by exact_mod_cast b1
  have c2 : -2 < 3 * M - T := by exact_mod_cast b2
  refine ⟨F, 3 * M - T, hF8, h1, ?_, by omega, ?_⟩
  · rw [hPv, hFm, hT]; push_cast; field_simp; ring
  · intro hne hdiv
    obtain ⟨a, ha⟩ := hdiv
    have : (T : ℚ) / 3 = ((a * 2 ^ m : ℤ) : ℚ) := by
      rw [hT, ha]; push_cast; field_simp; ring
    rw [this, rne_intCast] at hM
    apply hne
    rw [hM, hT, ha]; ring

theorem IsRN.le_int {q v : ℚ} (h : IsRN q v) (z : ℤ) (hz0 : 0 ≤ z) (hz : z ≤ 2 ^ 53)
    (h0 : 0 ≤ q) (hq : q ≤ z) : v ≤ z := by
  have hs := isRN_self z.toNat 0 (by omega)
  have e : ((z.toNat : ℕ) : ℚ) = (z : ℚ) := by
    have : ((z.toNat : ℕ) : ℤ) = z := Int.toNat_of_nonneg hz0
    exact_mod_cast this
  rw [e] at hs
  simp only [zpow_zero, mul_one] at hs
  exact h.mono hs h0 hq

theorem IsRN.int_le {q v : ℚ} (h : IsRN q v) (z : ℤ) (hz0 : 0 ≤ z) (hz : z ≤ 2 ^ 53)
    (hq : (z : ℚ) ≤ q) : (z : ℚ) ≤ v := by
  have hs := isRN_self z.toNat 0 (by omega)
  have e : ((z.toNat : ℕ) : ℚ) = (z : ℚ) := by
    have : ((z.toNat : ℕ) : ℤ) = z := Int.toNat_of_nonneg hz0
    exact_mod_cast this
  rw [e] at hs
  simp only [zpow_zero, mul_one] at hs
  exact hs.mono h (by exact_mod_cast hz0) hq

/-- A tie or less above an integer `k` rounds down to `k`: the value
`k + d * u` with `d ≤ 4`, where `k` is at least `3 * d * 2 ^ 52` units `u`. -/
theorem round_tie_down (k d F : ℤ) (A : ℚ) (hk1 : 1 ≤ k) (hk2 : k ≤ 2 ^ 48)
    (hd1 : 1 ≤ d) (hd4 : d ≤ 4)
    (hlow : 3 * (d : ℚ) * 2 ^ 52 * (2 : ℚ) ^ F ≤ k)
    (hA : IsRN ((k : ℚ) + d * (2 : ℚ) ^ F) A) : A = k := by
  have hu := two_zpow_pos F
  have hkq1 : (1 : ℚ) ≤ k := by exact_mod_cast hk1
  have hkq2 : (k : ℚ) ≤ 2 ^ 48 := by exact_mod_cast hk2
  have hdq1 : (1 : ℚ) ≤ d := by exact_mod_cast hd1
  have hdq4 : (d : ℚ) ≤ 4 := by exact_mod_cast hd4
  obtain ⟨G, g1, g2⟩ := exists_binade (q := (k : ℚ)) (by linarith)
  have hG := two_zpow_pos G
  have hG4 : G ≤ -4 := by
    by_contra hc
    have h3 : (2 : ℚ) ^ (-3 : ℤ) ≤ (2 : ℚ) ^ G :=
      zpow_le_zpow_right₀ (by norm_num) (by omega)
    have e : (2 : ℚ) ^ (-3 : ℤ) = 1 / 8 := by norm_num [zpow_neg]
    rw [e] at h3
    nlinarith
  obtain ⟨g, hg⟩ : ∃ g : ℕ, G = -(g : ℤ) - 1 := ⟨(-G - 1).toNat, by omega⟩
  have hGg : (2 : ℚ) ^ G = ((2 : ℚ) ^ g * 2)⁻¹ := by
    rw [hg, zpow_sub₀ (by norm_num), zpow_neg, zpow_natCast]
    norm_num; field_simp; ring
  have h2g : (0 : ℚ) < (2 : ℚ) ^ g := by positivity
  have hz : (k : ℚ) = ((2 * (k * 2 ^ g) : ℤ) : ℚ) * (2 : ℚ) ^ G := by
    rw [hGg]; push_cast; field_simp; ring
  have hJ : (2 * (k * 2 ^ g)) % 2 = 0 := Int.mul_emod_right _ _
  -- the unit of `k` is at least `2 * d` units `u`
  have key : 3 * (d : ℚ) * (2 : ℚ) ^ F < 2 * (2 : ℚ) ^ G := by
    have : 3 * (d : ℚ) * 2 ^ 52 * (2 : ℚ) ^ F < 2 ^ 53 * (2 : ℚ) ^ G := by linarith
    linarith
  have hGF : F + 1 ≤ G := by
    by_contra hc
    have : (2 : ℚ) ^ G ≤ (2 : ℚ) ^ F := zpow_le_zpow_right₀ (by norm_num) (by omega)
    nlinarith
  have h2du : 2 * (d : ℚ) * (2 : ℚ) ^ F ≤ (2 : ℚ) ^ G := by
    rcases (by omega : G = F + 1 ∨ G = F + 2 ∨ F + 3 ≤ G) with h | h | h
    · have e : (2 : ℚ) ^ G = (2 : ℚ) ^ F * 2 := by rw [h, zpow_add_one₀ (by norm_num)]
      rw [e] at key ⊢
      have : 3 * (d : ℚ) < 4 := by nlinarith
      have : ((3 * d : ℤ) : ℚ) < ((4 : ℤ) : ℚ) := by push_cast; linarith
      have : 3 * d < 4 := by exact_mod_cast this
      have hd : d = 1 := by omega
      rw [hd]; push_cast; linarith
    · have e : (2 : ℚ) ^ G = (2 : ℚ) ^ F * 4 := by
        rw [h, show F + 2 = F + 1 + 1 by ring, zpow_add_one₀ (by norm_num),
          zpow_add_one₀ (by norm_num)]
        ring
      rw [e] at key ⊢
      have : 3 * (d : ℚ) < 8 := by nlinarith
      have : ((3 * d : ℤ) : ℚ) < ((8 : ℤ) : ℚ) := by push_cast; linarith
      have : 3 * d < 8 := by exact_mod_cast this
      have hd : (d : ℚ) ≤ 2 := by exact_mod_cast (by omega : d ≤ 2)
      nlinarith
    · have h8 : (2 : ℚ) ^ (F + 3) ≤ (2 : ℚ) ^ G := zpow_le_zpow_right₀ (by norm_num) h
      have e : (2 : ℚ) ^ (F + 3) = (2 : ℚ) ^ F * 8 := by
        rw [show F + 3 = F + 1 + 1 + 1 by ring, zpow_add_one₀ (by norm_num),
          zpow_add_one₀ (by norm_num), zpow_add_one₀ (by norm_num)]
        ring
      rw [e] at h8
      nlinarith
  have hdu0 : 0 ≤ (d : ℚ) * (2 : ℚ) ^ F := by positivity
  -- the mantissa of `k` is below `2 ^ 53`
  have hJlt : ((2 * (k * 2 ^ g) : ℤ) : ℚ) < 2 ^ 53 := by
    rw [hz] at g2
    exact lt_of_mul_lt_mul_right g2 hG.le
  have hJle : ((2 * (k * 2 ^ g) : ℤ) : ℚ) ≤ 2 ^ 53 - 1 := by
    have : (2 * (k * 2 ^ g) : ℤ) < 2 ^ 53 := by exact_mod_cast hJlt
    have : (2 * (k * 2 ^ g) : ℤ) ≤ 2 ^ 53 - 1 := by omega
    exact_mod_cast this
  have hkle : (k : ℚ) ≤ (2 ^ 53 - 1) * (2 : ℚ) ^ G := by
    rw [hz]
    exact mul_le_mul_of_nonneg_right hJle hG.le
  apply hA.eq_even (G := G) (J := 2 * (k * 2 ^ g)) _ _ hz hJ
  · rw [add_sub_cancel_left, abs_of_nonneg hdu0]; linarith
  · linarith
  · linarith

/-- A value at most half a unit in the last place below `c = J * 2 ^ G`, `J`
even, rounds up to `c`. -/
theorem round_near_up {q v : ℚ} (c : ℚ) (G J : ℤ) (h : IsRN q v)
    (hc : c = (J : ℚ) * (2 : ℚ) ^ G) (hJ : J % 2 = 0)
    (hJ52 : (2 : ℚ) ^ 52 + 1 ≤ J) (hJ53 : (J : ℚ) ≤ 2 ^ 53)
    (h1 : c - (2 : ℚ) ^ G / 2 ≤ q) (h2 : q ≤ c) : v = c := by
  have hG := two_zpow_pos G
  apply h.eq_even (G := G) (J := J) _ _ hc hJ
  · rw [abs_sub_comm, abs_of_nonneg (by linarith)]; linarith
  · have : (2 ^ 52 + 1) * (2 : ℚ) ^ G ≤ (J : ℚ) * (2 : ℚ) ^ G :=
      mul_le_mul_of_nonneg_right hJ52 hG.le
    rw [hc] at h1
    linarith
  · have : (J : ℚ) * (2 : ℚ) ^ G ≤ 2 ^ 53 * (2 : ℚ) ^ G :=
      mul_le_mul_of_nonneg_right hJ53 hG.le
    rw [hc] at h2
    linarith

/-- For at most `2 ^ 48` rows the float computation of a raw range bound agrees
with exact arithmetic: it is the ceiling of `c * numRows / 12`. -/
theorem rawBound_eq (n c : Int) (hn : 12 ≤ n) (hb : n ≤ 2 ^ 48) (hc0 : 0 ≤ c) (hc : c ≤ 12) :
    rawBound n c = (c * n + 11) / 12 := by
  obtain ⟨F, σ, hF8, hlo, h12P, hσ, hσ3⟩ := npc_structure n hn hb
  obtain ⟨A, hA, eA⟩ := rawBound_spec n c hn (by omega) hc0 hc
  rw [ofInt_exact c hc0 (by omega)] at hA
  have hu := two_zpow_pos F
  have hu8 : (2 : ℚ) ^ F ≤ 1 / 256 := zpow_neg_eight_le hF8
  have hσ1 : (-1 : ℚ) ≤ σ := by rcases hσ with h | h | h <;> rw [h] <;> norm_num
  have hσ2 : (σ : ℚ) ≤ 1 := by rcases hσ with h | h | h <;> rw [h] <;> norm_num
  have hcq0 : (0 : ℚ) ≤ c := by exact_mod_cast hc0
  have hcq : (c : ℚ) ≤ 12 := by exact_mod_cast hc
  have hn12 : (12 : ℚ) ≤ n := by exact_mod_cast hn
  have hn48 : (n : ℚ) ≤ 2 ^ 48 := by exact_mod_cast hb
  have hP : (numPerCity n).toQ = ((n : ℚ) + 4 * σ * (2 : ℚ) ^ F) / 12 := by linarith
  have hcP : (c : ℚ) * (numPerCity n).toQ
      = (c : ℚ) * n / 12 + (c : ℚ) * σ * (2 : ℚ) ^ F / 3 := by rw [hP]; ring
  rw [hcP] at hA
  -- the perturbation `c * σ * u / 3`
  have hcu : 0 ≤ (c : ℚ) * (2 : ℚ) ^ F := by positivity
  have hcu2 : (c : ℚ) * (2 : ℚ) ^ F ≤ 12 / 256 :=
    le_trans (mul_le_mul_of_nonneg_right hcq hu.le) (by linarith)
  have hp1 : -(1 / 64 : ℚ) ≤ (c : ℚ) * σ * (2 : ℚ) ^ F / 3 := by
    have : (c : ℚ) * σ * (2 : ℚ) ^ F = σ * ((c : ℚ) * (2 : ℚ) ^ F) := by ring
    rw [this]; nlinarith
  have hp2 : (c : ℚ) * σ * (2 : ℚ) ^ F / 3 ≤ 1 / 64 := by
    have : (c : ℚ) * σ * (2 : ℚ) ^ F = σ * ((c : ℚ) * (2 : ℚ) ^ F) := by ring
    rw [this]; nlinarith
  have hcn0 : (0 : ℚ) ≤ (c : ℚ) * n / 12 := by positivity
  have hcn1 : (c : ℚ) * n / 12 ≤ 2 ^ 48 := by nlinarith
  -- the product is at least zero, since it is either zero or above `1 - 1/64`
  have hq0 : 0 ≤ (c : ℚ) * n / 12 + (c : ℚ) * σ * (2 : ℚ) ^ F / 3 := by
    rcases eq_or_lt_of_le hc0 with h | h
    · rw [← h]; simp
    · have : (1 : ℚ) ≤ c := by exact_mod_cast (by omega : (1 : ℤ) ≤ c)
      have : (1 : ℚ) ≤ (c : ℚ) * n / 12 := by nlinarith
      linarith
  have hrel := hA.relerr0 hq0
  rw [abs_le] at hrel
  have hq1 : ((c : ℚ) * n / 12 + (c : ℚ) * σ * (2 : ℚ) ^ F / 3) / 2 ^ 53 ≤ 1 / 16 := by
    rw [div_le_iff (by positivity)]; norm_num; linarith
  -- integer facts
  have hk1 := Int.ediv_mul_le (c * n + 11) (by norm_num : (12 : ℤ) ≠ 0)
  have hk2 := Int.lt_ediv_add_one_mul_self (c * n + 11) (by norm_num : (0 : ℤ) < 12)
  set k : ℤ := (c * n + 11) / 12 with hk
  have hk1q : (k : ℚ) * 12 ≤ (c : ℚ) * n + 11 := by exact_mod_cast hk1
  have hk2q : (c : ℚ) * n + 11 < ((k : ℚ) + 1) * 12 := by exact_mod_cast hk2
  rw [eA, Int.ceil_eq_iff]
  constructor
  · linarith
  · by_cases hj : k * 12 = c * n
    · -- twelve divides `c * n`
      have hjq : (k : ℚ) * 12 = (c : ℚ) * n := by exact_mod_cast hj
      have hkv : (c : ℚ) * n / 12 = k := by linarith
      rw [hkv] at hA hq0
      have hk0 : 0 ≤ k := by
        have : (0 : ℚ) ≤ k := by linarith
        exact_mod_cast this
      have hk48 : k ≤ 2 ^ 48 := by
        have : (k : ℚ) ≤ 2 ^ 48 := by linarith
        exact_mod_cast this
      rcases hσ with h | h | h
      · apply hA.le_int k hk0 (by omega) hq0
        rw [h]; push_cast
        have : (c : ℚ) * (-1) * (2 : ℚ) ^ F / 3 ≤ 0 := by
          have : (c : ℚ) * (-1) * (2 : ℚ) ^ F = -((c : ℚ) * (2 : ℚ) ^ F) := by ring
          rw [this]; linarith
        linarith
      · apply hA.le_int k hk0 (by omega) hq0
        rw [h]; simp
      · have h3 : ¬ (3 ∣ n) := hσ3 (by rw [h]; norm_num)
        have hc3 : 3 ∣ c := by
          have : (3 : ℤ) ∣ c * n := ⟨k * 4, by rw [← hj]; ring⟩
          rcases (Int.prime_three.dvd_mul.mp this) with h' | h'
          · exact h'
          · exact absurd h' h3
        by_cases hc00 : c = 0
        · apply hA.le_int k hk0 (by omega) hq0
          rw [hc00]; simp
        obtain ⟨d, hd⟩ := hc3
        have hd1 : 1 ≤ d := by omega
        have hd4 : d ≤ 4 := by omega
        have hk1' : 1 ≤ k := by
          by_contra hc'
          have hk00 : k = 0 := by omega
          have : c * n = 0 := by rw [← hj, hk00]; ring
          rcases mul_eq_zero.mp this with h' | h'
          · exact hc00 h'
          · omega
        have hdq : (c : ℚ) = 3 * d := by exact_mod_cast hd
        have hlow : 3 * (d : ℚ) * 2 ^ 52 * (2 : ℚ) ^ F ≤ k := by
          rw [← hkv, hdq]
          have : (3 : ℚ) * d * n / 12 = 3 * d * ((n : ℚ) / 12) := by ring
          rw [this]
          have hd0 : (0 : ℚ) ≤ 3 * d := by
            have : (1 : ℚ) ≤ d := by exact_mod_cast hd1
            linarith
          have := mul_le_mul_of_nonneg_left hlo hd0
          linarith
        have hq : (k : ℚ) + (c : ℚ) * σ * (2 : ℚ) ^ F / 3 = (k : ℚ) + d * (2 : ℚ) ^ F := by
          rw [h, hdq]; push_cast; ring
        rw [hq] at hA
        rw [round_tie_down k d F A hk1' hk48 hd1 hd4 hlow hA]
    · have : k * 12 ≥ c * n + 1 := by
        rcases lt_or_gt_of_ne hj with h | h
        · omega
        · omega
      have : (k : ℚ) * 12 ≥ (c : ℚ) * n + 1 := by exact_mod_cast this
      linarith

/-- The quotient `c * n / (n + 4 * u)` rounds to `c` for `c = 3, 6, 9`. -/
theorem round_quot_up (c : ℤ) (n u Q : ℚ) (hc : c = 3 ∨ c = 6 ∨ c = 9)
    (hu : 0 < u) (hn : 12 * 2 ^ 52 * u ≤ n)
    (hQ : IsRN ((c : ℚ) * n / (n + 4 * u)) Q) : Q = c := by
  have hnpos : 0 < n := by nlinarith
  have hden : 0 < n + 4 * u := by linarith
  have h2 : (c : ℚ) * n / (n + 4 * u) ≤ c := by
    rw [div_le_iff hden]
    have hc0 : (0 : ℚ) ≤ c := by rcases hc with h | h | h <;> rw [h] <;> norm_num
    nlinarith
  rcases hc with h | h | h
  · subst h
    apply round_near_up (3 : ℤ) (-51) 6755399441055744 hQ
      (by norm_num [zpow_neg]) (by norm_num) (by norm_num) (by norm_num) _ h2
    rw [le_div_iff hden]
    have e : (2 : ℚ) ^ (-51 : ℤ) = 1 / 2 ^ 51 := by norm_num [zpow_neg]
    rw [e]; push_cast
    nlinarith
  · subst h
    apply round_near_up (6 : ℤ) (-50) 6755399441055744 hQ
      (by norm_num [zpow_neg]) (by norm_num) (by norm_num) (by norm_num) _ h2
    rw [le_div_iff hden]
    have e : (2 : ℚ) ^ (-50 : ℤ) = 1 / 2 ^ 50 := by norm_num [zpow_neg]
    rw [e]; push_cast
    nlinarith
  · subst h
    apply round_near_up (9 : ℤ) (-49) 5066549580791808 hQ
      (by norm_num [zpow_neg]) (by norm_num) (by norm_num) (by norm_num) _ h2
    rw [le_div_iff hden]
    have e : (2 : ℚ) ^ (-49 : ℤ) = 1 / 2 ^ 49 := by norm_num [zpow_neg]
    rw [e]; push_cast
    nlinarith

theorem quot_upper_arith (c n r w P ε : ℚ) (hε0 : 0 < ε) (hεn : n * ε ≤ 1 / 2) (hε1 : ε ≤ 1)
    (hc0 : 0 ≤ c) (hc11 : c ≤ 11) (hw1 : -(1 / 64 : ℚ) ≤ w) (hP : P = (n + w) / 12)
    (hPpos : 0 < P) (h : 12 * r + 1 ≤ (c + 1) * n) : r / P ≤ c + 1 - ε := by
  rw [div_le_iff hPpos, hP]
  have hz0 : 0 ≤ c + 1 - ε := by linarith
  have hz12 : c + 1 - ε ≤ 12 := by linarith
  have t1 : (c + 1 - ε) * w ≥ -(12 / 64) := by nlinarith
  have t3 : (c + 1 - ε) * (n + w) = (c + 1) * n - n * ε + (c + 1 - ε) * w := by ring
  have : 12 * r ≤ (c + 1 - ε) * (n + w) := by rw [t3]; linarith
  linarith

/-- For at most `2 ^ 48` rows the float computation of `cityForRow` agrees with
exact arithmetic: the city of row `r` is `⌊12 * r / numRows⌋`. -/
theorem cityForRow_eq (n r : Int) (hn : 12 ≤ n) (hb : n ≤ 2 ^ 48) (hr0 : 0 ≤ r) (hr : r < n) :
    cityDistributor.cityForRow ⟨n⟩ r = some (12 * r / n) := by
  obtain ⟨F, σ, hF8, hlo, h12P, hσ, hσ3⟩ := npc_structure n hn hb
  obtain ⟨Q, hQ, e⟩ := cityForRow_spec n r hn hr0 hr
  rw [ofInt_exact r hr0 (by omega)] at hQ
  have hu := two_zpow_pos F
  have hu8 : (2 : ℚ) ^ F ≤ 1 / 256 := zpow_neg_eight_le hF8
  have hσ1 : (-1 : ℚ) ≤ σ := by rcases hσ with h | h | h <;> rw [h] <;> norm_num
  have hσ2 : (σ : ℚ) ≤ 1 := by rcases hσ with h | h | h <;> rw [h] <;> norm_num
  have hn12 : (12 : ℚ) ≤ n := by exact_mod_cast hn
  have hn48 : (n : ℚ) ≤ 2 ^ 48 := by exact_mod_cast hb
  have hrq0 : (0 : ℚ) ≤ r := by exact_mod_cast hr0
  have hPpos := numPerCity_pos n hn
  set P : ℚ := (numPerCity n).toQ with hPdef
  set w : ℚ := 4 * σ * (2 : ℚ) ^ F with hw
  have hw1 : -(1 / 64 : ℚ) ≤ w := by rw [hw]; nlinarith
  have hw2 : w ≤ 1 / 64 := by rw [hw]; nlinarith
  have hP : P = ((n : ℚ) + w) / 12 := by linarith
  -- integer facts about the exact quotient
  have hnpos : (0 : ℤ) < n := by omega
  have hc1 := Int.ediv_mul_le (12 * r) (by omega : n ≠ 0)
  have hc2 := Int.lt_ediv_add_one_mul_self (12 * r) hnpos
  have hc0 : 0 ≤ 12 * r / n := Int.ediv_nonneg (by omega) (by omega)
  set c : ℤ := 12 * r / n with hc
  have hc11 : c ≤ 11 := by
    by_contra hcon
    have : 12 * n ≤ c * n := by nlinarith
    omega
  have hcq0 : (0 : ℚ) ≤ c := by exact_mod_cast hc0
  have hcq11 : (c : ℚ) ≤ 11 := by exact_mod_cast hc11
  have hc1q : (c : ℚ) * n ≤ 12 * r := by exact_mod_cast hc1
  have hc2' : 12 * r + 1 ≤ (c + 1) * n := by omega
  have hc2q : 12 * (r : ℚ) + 1 ≤ ((c : ℚ) + 1) * n := by exact_mod_cast hc2'
  have hq0 : 0 ≤ (r : ℚ) / P := by positivity
  rw [e]
  congr 1
  rw [Int.floor_eq_iff]
  constructor
  · -- lower bound
    rcases eq_or_lt_of_le hc0 with h0 | h0
    · rw [← h0]; push_cast; exact hQ.nonneg hq0
    · have hc1' : (1 : ℚ) ≤ c := by exact_mod_cast (by omega : (1 : ℤ) ≤ c)
      by_cases hcase : c * n + 1 ≤ 12 * r ∨ σ ≤ 0
      · apply hQ.int_le c hc0 (by omega)
        rw [le_div_iff hPpos, hP]
        rcases hcase with h | h
        · have hq : (c : ℚ) * n + 1 ≤ 12 * r := by exact_mod_cast h
          nlinarith
        · have hσ0 : (σ : ℚ) ≤ 0 := by exact_mod_cast h
          have hw0 : w ≤ 0 := by rw [hw]; nlinarith
          nlinarith
      · push_neg at hcase
        obtain ⟨hA, hB⟩ := hcase
        have hσe : σ = 1 := by omega
        have hcn : c * n = 12 * r := by omega
        have h3 : ¬ (3 ∣ n) := hσ3 (by omega)
        have hc3 : 3 ∣ c := by
          have : (3 : ℤ) ∣ c * n := ⟨4 * r, by rw [hcn]; ring⟩
          rcases (Int.prime_three.dvd_mul.mp this) with h' | h'
          · exact h'
          · exact absurd h' h3
        have hcv : c = 3 ∨ c = 6 ∨ c = 9 := by omega
        have hcnq : (c : ℚ) * n = 12 * r := by exact_mod_cast hcn
        have hwv : w = 4 * (2 : ℚ) ^ F := by rw [hw, hσe]; push_cast; ring
        have hquot : (r : ℚ) / P = (c : ℚ) * n / (n + 4 * (2 : ℚ) ^ F) := by
          rw [hP, hwv]
          have : (0 : ℚ) < n + 4 * (2 : ℚ) ^ F := by positivity
          field_simp
          linarith
        rw [hquot] at hQ
        have hlo' : 12 * 2 ^ 52 * (2 : ℚ) ^ F ≤ n := by linarith
        rw [round_quot_up c n ((2 : ℚ) ^ F) Q hcv hu hlo' hQ]
  · -- upper bound, through the float just below `c + 1`
    have hK0 : 0 ≤ (c + 1) * 2 ^ 49 - 1 := by omega
    have hs := isRN_self ((c + 1) * 2 ^ 49 - 1).toNat (-49) (by omega)
    have eK : ((((c + 1) * 2 ^ 49 - 1).toNat : ℕ) : ℚ) = ((c : ℚ) + 1) * 2 ^ 49 - 1 := by
      have : ((((c + 1) * 2 ^ 49 - 1).toNat : ℕ) : ℤ) = (c + 1) * 2 ^ 49 - 1 :=
        Int.toNat_of_nonneg hK0
      exact_mod_cast this
    have e49 : (2 : ℚ) ^ (-49 : ℤ) = 1 / 2 ^ 49 := by norm_num [zpow_neg]
    rw [eK, e49] at hs
    have hz : (((c : ℚ) + 1) * 2 ^ 49 - 1) * (1 / 2 ^ 49) = (c : ℚ) + 1 - 1 / 2 ^ 49 := by
      ring
    rw [hz] at hs
    have hle : (r : ℚ) / P ≤ (c : ℚ) + 1 - 1 / 2 ^ 49 := by
      apply quot_upper_arith (c : ℚ) n r w P (1 / 2 ^ 49) (by norm_num) _ (by norm_num)
        hcq0 hcq11 hw1 hP hPpos hc2q
      have : (n : ℚ) * (1 / 2 ^ 49) ≤ 2 ^ 48 * (1 / 2 ^ 49) :=
        mul_le_mul_of_nonneg_right hn48 (by norm_num)
      have e2 : (2 : ℚ) ^ 48 * (1 / 2 ^ 49) = 1 / 2 := by norm_num
      rw [e2] at this
      exact this
    have hfin := hQ.mono hs hq0 hle
    have hpos : (0 : ℚ) < 1 / 2 ^ 49 := by norm_num
    exact lt_of_le_of_lt hfin (sub_lt_self _ hpos)

theorem gap_arith (n fn P X A B ρ : ℚ) (_hρ0 : 0 ≤ ρ) (hρ : ρ ≤ 1 / 1000) (hn : 100000 ≤ n)
    (_hfn0 : 0 ≤ fn) (_hP0 : 0 ≤ P) (hX0 : 0 ≤ X) (hX : X ≤ 11 * P)
    (h1 : |fn - n| ≤ n * ρ) (h2 : |P - fn / 12| ≤ fn / 12 * ρ)
    (h3 : |A - X| ≤ X * ρ) (h4 : |B - (X + P)| ≤ (X + P) * ρ) :
    A + 1 ≤ B ∧ A + 1 ≤ n := by
  rw [abs_le] at h1 h2 h3 h4
  have a1 : n * ρ ≤ n * (1 / 1000) := mul_le_mul_of_nonneg_left hρ (by linarith)
  have a2 : fn / 12 * ρ ≤ fn / 12 * (1 / 1000) := mul_le_mul_of_nonneg_left hρ (by linarith)
  have a3 : X * ρ ≤ X * (1 / 1000) := mul_le_mul_of_nonneg_left hρ hX0
  have a4 : (X + P) * ρ ≤ (X + P) * (1 / 1000) := mul_le_mul_of_nonneg_left hρ (by linarith)
  constructor <;> linarith

/-- The rounding error bound `q / 2 ^ 53` as a product. -/
theorem relerr_small (q : ℚ) (_hq : 0 ≤ q) : q / 2 ^ 53 = q * (1 / 2 ^ 53) := by ring

theorem rawBound_nonneg (n c : Int) (hn : 12 ≤ n) (hb : n ≤ 2 ^ 62) (hc0 : 0 ≤ c)
    (hc12 : c ≤ 12) : 0 ≤ rawBound n c := by
  rw [← rawBound_zero n hn hb]
  exact rawBound_mono n 0 c hn hb le_rfl hc0 hc12

/-- Beyond `2 ^ 48` rows the buckets are far wider than the rounding errors. -/
theorem rawBound_gap_big (n c : Int) (hn : 2 ^ 48 < n) (hb : n ≤ 2 ^ 62) (hc0 : 0 ≤ c)
    (hc : c ≤ 11) :
    rawBound n c < n ∧ rawBound n c < rawBound n (c + 1) := by
  have hn12 : 12 ≤ n := by omega
  obtain ⟨hP, hPm, hfn⟩ := numPerCity_spec n hn12
  obtain ⟨A, hA, eA⟩ := rawBound_spec n c hn12 hb hc0 (by omega)
  obtain ⟨B, hB, eB⟩ := rawBound_spec n (c + 1) hn12 hb (by omega) (by omega)
  rw [ofInt_exact c hc0 (by omega)] at hA
  rw [ofInt_exact (c + 1) (by omega) (by omega)] at hB
  have hnq : (2 : ℚ) ^ 48 < n := by exact_mod_cast hn
  have hn0 : (0 : ℚ) ≤ n := by
    have : (0 : ℚ) < 2 ^ 48 := by norm_num
    linarith
  have hfn0 := hfn.nonneg hn0
  have hPpos := numPerCity_pos n hn12
  have hcq0 : (0 : ℚ) ≤ c := by exact_mod_cast hc0
  have hcq : (c : ℚ) ≤ 11 := by exact_mod_cast hc
  have hX0 : 0 ≤ (c : ℚ) * (numPerCity n).toQ := by positivity
  have hX : (c : ℚ) * (numPerCity n).toQ ≤ 11 * (numPerCity n).toQ :=
    mul_le_mul_of_nonneg_right hcq hPpos.le
  have r1 := hfn.relerr0 hn0
  have r2 := hP.relerr0 (by positivity)
  have r3 := hA.relerr0 hX0
  have hB' : IsRN ((c : ℚ) * (numPerCity n).toQ + (numPerCity n).toQ) B := by
    have : (((c + 1 : ℤ) : ℚ)) * (numPerCity n).toQ
        = (c : ℚ) * (numPerCity n).toQ + (numPerCity n).toQ := by push_cast; ring
    rw [this] at hB; exact hB
  have r4 := hB'.relerr0 (by linarith)
  rw [relerr_small _ hn0] at r1
  rw [relerr_small _ (by positivity)] at r2
  rw [relerr_small _ hX0] at r3
  rw [relerr_small _ (by linarith)] at r4
  have hbig : (100000 : ℚ) ≤ n := by
    have : (100000 : ℚ) ≤ 2 ^ 48 := by norm_num
    linarith
  obtain ⟨g1, g2⟩ := gap_arith n (F64.ofInt n).toQ (numPerCity n).toQ
    ((c : ℚ) * (numPerCity n).toQ) A B (1 / 2 ^ 53) (by norm_num) (by norm_num) hbig
    hfn0 hPpos.le hX0 hX r1 r2 r3 r4
  have hceil : (⌈A⌉ : ℚ) < A + 1 := Int.ceil_lt_add_one A
  rw [eA, eB]
  constructor
  · have : (⌈A⌉ : ℚ) < n := by linarith
    exact_mod_cast this
  · have : (⌈A⌉ : ℚ) < ⌈B⌉ := by
      have := Int.le_ceil B
      linarith
    exact_mod_cast this

/-- For every row count from twelve to `2 ^ 62` and every city, the raw lower
bound lies below `numRows` and strictly below the next raw bound. -/
theorem rawBound_gap (n c : Int) (hn : 12 ≤ n) (hb62 : n ≤ 2 ^ 62) (hc0 : 0 ≤ c)
    (hc : c ≤ 11) :
    rawBound n c < n ∧ rawBound n c < rawBound n (c + 1) := by
  by_cases hb : n ≤ 2 ^ 48
  · rw [rawBound_eq n c hn hb hc0 (by omega), rawBound_eq n (c + 1) hn hb (by omega) (by omega)]
    have e : (c + 1) * n = c * n + n := by ring
    rw [e]
    have h1 : c * n ≤ 11 * n := by nlinarith
    generalize c * n = x at *
    constructor <;> omega
  · exact rawBound_gap_big n c (by omega) hb62 hc0 hc

/-- Up to `2 ^ 52` rows the last raw bound reaches `numRows`. -/
theorem rawBound_twelve_ge (n : Int) (hn : 12 ≤ n) (hb : n ≤ 2 ^ 52) : n ≤ rawBound n 12 := by
  obtain ⟨hP, _, _⟩ := numPerCity_spec n hn
  rw [ofInt_exact n (by omega) (by omega)] at hP
  obtain ⟨A, hA, eA⟩ := rawBound_spec n 12 hn (by omega) (by norm_num) le_rfl
  rw [ofInt_exact 12 (by norm_num) (by norm_num)] at hA
  have hn12 : (12 : ℚ) ≤ n := by exact_mod_cast hn
  have hn52 : (n : ℚ) ≤ 2 ^ 52 := by exact_mod_cast hb
  have hrel := hP.relerr0 (by positivity)
  rw [abs_le] at hrel
  have h1 : (n : ℚ) / 12 / 2 ^ 53 ≤ 1 / 24 := by
    rw [div_le_iff (by positivity)]; norm_num; linarith
  -- the float `n - 1/2`
  have hK0 : 0 ≤ 2 * n - 1 := by omega
  have hs := isRN_self (2 * n - 1).toNat (-1) (by omega)
  have eK : (((2 * n - 1).toNat : ℕ) : ℚ) = 2 * (n : ℚ) - 1 := by
    have : (((2 * n - 1).toNat : ℕ) : ℤ) = 2 * n - 1 := Int.toNat_of_nonneg hK0
    exact_mod_cast this
  have e1 : (2 : ℚ) ^ (-1 : ℤ) = 1 / 2 := by norm_num [zpow_neg]
  rw [eK, e1] at hs
  have hz : (2 * (n : ℚ) - 1) * (1 / 2) = (n : ℚ) - 1 / 2 := by ring
  rw [hz] at hs
  have hle : (n : ℚ) - 1 / 2 ≤ ((12 : ℤ) : ℚ) * (numPerCity n).toQ := by
    push_cast; linarith
  have hA2 := hs.mono hA (by linarith) hle
  rw [eA]
  have : ((n - 1 : ℤ) : ℚ) < A := by push_cast; linarith
  have := Int.lt_ceil.mpr this
  omega

/-- Arithmetic behind `cityForRow_range`: the quotient stays below the float
preceding twelve. -/
theorem quot_lt_twelve_arith (n r P ε : ℚ) (hε0 : 0 < ε) (hnε : n * ε ≤ 4)
    (hn : 12 ≤ n) (hr : r ≤ n - 1) (hP0 : 0 < P)
    (h1 : n / 12 - n / 12 * (ε / 16) ≤ P) (h2 : P ≤ n / 12 + n / 12 * (ε / 16)) :
    r / P ≤ 12 - ε := by
  rw [div_le_iff hP0]
  have a1 : n / 12 * (ε / 16) = n * ε / 192 := by ring
  rw [a1] at h1 h2
  have a2 : P ≤ n / 6 := by linarith
  have a3 : ε * P ≤ ε * (n / 6) := mul_le_mul_of_nonneg_left a2 hε0.le
  have a4 : ε * (n / 6) = n * ε / 6 := by ring
  have a5 : (12 - ε) * P = 12 * P - ε * P := by ring
  rw [a5]
  linarith

/-- Up to `2 ^ 51` rows the city of every row of the table is one of `0..11`. -/
theorem cityForRow_range (n r : Int) (hn : 12 ≤ n) (hb : n ≤ 2 ^ 51) (hr0 : 0 ≤ r)
    (hr : r < n) :
    ∃ ci, cityDistributor.cityForRow ⟨n⟩ r = some ci ∧ 0 ≤ ci ∧ ci ≤ 11 := by
  obtain ⟨hP, _, _⟩ := numPerCity_spec n hn
  rw [ofInt_exact n (by omega) (by omega)] at hP
  obtain ⟨Q, hQ, e⟩ := cityForRow_spec n r hn hr0 hr
  rw [ofInt_exact r hr0 (by omega)] at hQ
  have hPpos := numPerCity_pos n hn
  have hn12 : (12 : ℚ) ≤ n := by exact_mod_cast hn
  have hn51 : (n : ℚ) ≤ 2 ^ 51 := by exact_mod_cast hb
  have hrq0 : (0 : ℚ) ≤ r := by exact_mod_cast hr0
  have hrq : (r : ℚ) ≤ n - 1 := by
    have : r ≤ n - 1 := by omega
    exact_mod_cast this
  have hrel := hP.relerr0 (by positivity)
  rw [abs_le] at hrel
  have hq0 : 0 ≤ (r : ℚ) / (numPerCity n).toQ := by positivity
  have hnε : (n : ℚ) * (1 / 2 ^ 49) ≤ 4 := by
    have : (n : ℚ) * (1 / 2 ^ 49) ≤ 2 ^ 51 * (1 / 2 ^ 49) :=
      mul_le_mul_of_nonneg_right hn51 (by norm_num)
    have e2 : (2 : ℚ) ^ 51 * (1 / 2 ^ 49) = 4 := by norm_num
    rw [e2] at this
    exact this
  have eρ : (n : ℚ) / 12 / 2 ^ 53 = (n : ℚ) / 12 * (1 / 2 ^ 49 / 16) := by
    ring
  rw [eρ] at hrel
  have hle := quot_lt_twelve_arith n r (numPerCity n).toQ (1 / 2 ^ 49) (by norm_num)
    hnε hn12 hrq hPpos (by linarith) (by linarith)
  -- the float `12 - 2 ^ (-49)`
  have hs := isRN_self (12 * 2 ^ 49 - 1) (-49) (by norm_num)
  have e49 : (2 : ℚ) ^ (-49 : ℤ) = 1 / 2 ^ 49 := by norm_num [zpow_neg]
  rw [e49] at hs
  have hz : (((12 * 2 ^ 49 - 1 : ℕ) : ℚ)) * (1 / 2 ^ 49) = 12 - 1 / 2 ^ 49 := by
    norm_num
  rw [hz] at hs
  have hfin := hQ.mono hs hq0 hle
  have hQ0 := hQ.nonneg hq0
  refine ⟨⌊Q⌋, e, Int.floor_nonneg.mpr hQ0, ?_⟩
  have hpos : (0 : ℚ) < 1 / 2 ^ 49 := by norm_num
  have : ⌊Q⌋ < 12 := by
    rw [Int.floor_lt]
    push_cast
    linarith
  omega

/-- For at most `2 ^ 48` rows `rowsForCity` returns the exact ceilings. -/
theorem rowsForCity_small (n c : Int) (hn : 12 ≤ n) (hb : n ≤ 2 ^ 48) (hc0 : 0 ≤ c)
    (hc : c ≤ 11) :
    cityDistributor.rowsForCity ⟨n⟩ c = some ((c * n + 11) / 12, ((c + 1) * n + 11) / 12) := by
  rw [rowsForCity_raw n c hn, rawBound_eq n c hn hb hc0 (by omega),
    rawBound_eq n (c + 1) hn hb (by omega) (by omega)]
  have e : (c + 1) * n = c * n + n := by ring
  rw [e]
  have h1 : c * n ≤ 11 * n := by nlinarith
  have h0 : 0 ≤ c * n := by positivity
  generalize c * n = x at *
  have a1 : ¬ ((x + 11) / 12 ≥ n) := by omega
  rw [if_neg a1]
  by_cases a2 : (x + n + 11) / 12 ≥ n
  · rw [if_pos a2]
    have : (x + n + 11) / 12 = n := by omega
    rw [this]
  · rw [if_neg a2]

/-- Row `r` lies in the exact bucket of city `c` iff `c = ⌊12 * r / n⌋`. -/
theorem mem_bucket_iff (n c r : Int) (hn : 12 ≤ n) :
    ((c * n + 11) / 12 ≤ r ∧ r < ((c + 1) * n + 11) / 12) ↔ c = 12 * r / n := by
  have hnpos : (0 : ℤ) < n := by omega
  have e : (c + 1) * n = c * n + n := by ring
  constructor
  · rintro ⟨h1, h2⟩
    rw [e] at h2
    have a1 : c * n ≤ 12 * r := by
      generalize c * n = x at *
      omega
    have a2 : 12 * r < (c + 1) * n := by
      rw [e]
      generalize c * n = x at *
      omega
    apply le_antisymm
    · exact (Int.le_ediv_iff_mul_le hnpos).mpr a1
    · have := (Int.ediv_lt_iff_lt_mul hnpos).mpr a2
      omega
  · intro h
    have a1 : c * n ≤ 12 * r := by
      rw [h]; exact Int.ediv_mul_le _ (by omega)
    have a2 : 12 * r < (c + 1) * n := by
      rw [h]; exact Int.lt_ediv_add_one_mul_self _ hnpos
    rw [e] at a2 ⊢
    generalize c * n = x at *
    constructor <;> omega

theorem cityAt_some (c : Int) (hc0 : 0 ≤ c) (hc : c ≤ 11) : ∃ city, cityAt c = some city := by
  interval_cases c <;> exact ⟨_, rfl⟩

theorem quot_range (n r : Int) (hn : 12 ≤ n) (hr0 : 0 ≤ r) (hr : r < n) :
    0 ≤ 12 * r / n ∧ 12 * r / n ≤ 11 := by
  have hnpos : (0 : ℤ) < n := by omega
  constructor
  · exact Int.ediv_nonneg (by omega) (by omega)
  · have : 12 * r / n < 12 := (Int.ediv_lt_iff_lt_mul hnpos).mpr (by omega)
    omega

theorem rowsForCity_clamp (n c : Int) (hn : 12 ≤ n) :
    cityDistributor.rowsForCity ⟨n⟩ c = some (clampBound n c, clampBound n (c + 1)) :=
  rowsForCity_raw n c hn

theorem clampBound_mono (n c c' : Int) (hn : 12 ≤ n) (hb : n ≤ 2 ^ 62) (hc : 0 ≤ c)
    (hcc : c ≤ c') (hc12 : c' ≤ 12) :
    clampBound n c ≤ clampBound n c' := by
  have := rawBound_mono n c c' hn hb hc hcc hc12
  unfold clampBound
  split <;> split <;> omega

theorem bucket_exists (m : ℤ → ℤ) (r : ℤ) (h0 : m 0 ≤ r) (h12 : r < m 12) :
    ∃ c, 0 ≤ c ∧ c ≤ 11 ∧ m c ≤ r ∧ r < m (c + 1) := by
  by_contra hne
  push_neg at hne
  have step : ∀ k : ℕ, k ≤ 12 → m k ≤ r := by
    intro k
    induction k with
    | zero => intro _; simpa using h0
    | succ k ih =>
      intro hk
      have := hne k (by omega) (by omega) (ih (by omega))
      push_cast
      exact this
  have := step 12 le_rfl
  norm_num at this
  omega

/-- C1 (amended): for `12 ≤ numRows ≤ 2 ^ 52` the ranges returned by
`rowsForCity` for the cities `0..11` tile `[0, numRows)`: the first starts at
0, the last ends at `numRows`, each range ends where the next starts,
`min ≤ max`, and every row index lies in exactly one range. -/
theorem rowsForCity_tiles (n : Int) (hn : 12 ≤ n) (hb : n ≤ 2 ^ 52) : RowsTile n := by
  have hb62 : n ≤ 2 ^ 62 := by omega
  have h0 : clampBound n 0 = 0 := by
    unfold clampBound
    rw [rawBound_zero n hn hb62, if_neg (by omega)]
  have h12 : clampBound n 12 = n := by
    unfold clampBound
    rw [if_pos (rawBound_twelve_ge n hn hb)]
  refine ⟨?_, ?_, ?_, ?_, ?_⟩
  · exact ⟨clampBound n (0 + 1), by rw [rowsForCity_clamp n 0 hn, h0]⟩
  · exact ⟨clampBound n 11, by rw [rowsForCity_clamp n 11 hn]; norm_num; exact h12⟩
  · intro c _ _
    exact ⟨_, _, _, rowsForCity_clamp n c hn, rowsForCity_clamp n (c + 1) hn⟩
  · intro c hc0 hc11
    exact ⟨_, _, rowsForCity_clamp n c hn,
      clampBound_mono n c (c + 1) hn hb62 hc0 (by omega) (by omega)⟩
  · intro r hr0 hr
    obtain ⟨c, hc0, hc, h1, h2⟩ := bucket_exists (clampBound n) r (by rw [h0]; exact hr0)
      (by rw [h12]; exact hr)
    refine ⟨c, ⟨hc0, hc, _, _, rowsForCity_clamp n c hn, h1, h2⟩, ?_⟩
    rintro d ⟨hd0, hd, a, b, hab, g1, g2⟩
    rw [rowsForCity_clamp n d hn] at hab
    simp only [Option.some.injEq, Prod.mk.injEq] at hab
    obtain ⟨ha, hb'⟩ := hab
    subst ha hb'
    rcases lt_trichotomy d c with hlt | heq | hgt
    · have := clampBound_mono n (d + 1) c hn hb62 (by omega) (by omega) (by omega)
      omega
    · exact heq
    · have := clampBound_mono n (c + 1) d hn hb62 (by omega) (by omega) (by omega)
      omega

/-- C1, witness: the theorem applied to 50 rows. -/
theorem rowsForCity_tiles_witness : (12 : Int) ≤ 50 ∧ (50 : Int) ≤ 2 ^ 52 ∧ RowsTile 50 :=
  ⟨by decide, by decide, rowsForCity_tiles 50 (by decide) (by decide)⟩

set_option maxRecDepth 100000 in
/-- C1, counterexample: with 6755399441055749 rows (about `1.5 * 2 ^ 52`) the
range of the last city ends one row short of `numRows`, so the last row is in
no range. -/
theorem rowsForCity_tiles_fails :
    (12 : Int) ≤ 6755399441055749 ∧
    cityDistributor.rowsForCity ⟨6755399441055749⟩ 11
      = some (6192449487634436, 6755399441055748) ∧
    ¬ RowsTile 6755399441055749 := by
  have h : cityDistributor.rowsForCity ⟨6755399441055749⟩ 11
      = some (6192449487634436, 6755399441055748) := by decide
  refine ⟨by decide, h, ?_⟩
  rintro ⟨_, ⟨mn, hmn⟩, _⟩
  rw [h] at hmn
  simp at hmn

/-- C2 (amended): for `12 ≤ numRows ≤ 2 ^ 48` and every city `0..11`,
`rowsForCity` returns a range all of whose rows `cityForRow` maps back to that
city; and every row of `[0, numRows)` lies in the range of its own city. -/
theorem city_round_trip (n : Int) (hn : 12 ≤ n) (hb : n ≤ 2 ^ 48) :
    (∀ c, 0 ≤ c → c ≤ 11 → ∃ mn mx, cityDistributor.rowsForCity ⟨n⟩ c = some (mn, mx) ∧
        ∀ r, mn ≤ r → r < mx → cityDistributor.cityForRow ⟨n⟩ r = some c) ∧
    (∀ r, 0 ≤ r → r < n → ∃ c mn mx, cityDistributor.cityForRow ⟨n⟩ r = some c ∧
        cityDistributor.rowsForCity ⟨n⟩ c = some (mn, mx) ∧ mn ≤ r ∧ r < mx) := by
  constructor
  · intro c hc0 hc
    refine ⟨_, _, rowsForCity_small n c hn hb hc0 hc, ?_⟩
    intro r h1 h2
    have hr0 : 0 ≤ r := by
      have : 0 ≤ (c * n + 11) / 12 := Int.ediv_nonneg (by positivity) (by norm_num)
      omega
    have hr : r < n := by
      have e : (c + 1) * n = c * n + n := by ring
      have h3 : c * n ≤ 11 * n := by nlinarith
      rw [e] at h2
      generalize c * n = x at *
      omega
    rw [cityForRow_eq n r hn hb hr0 hr, ← (mem_bucket_iff n c r hn).mp ⟨h1, h2⟩]
  · intro r hr0 hr
    obtain ⟨q0, q11⟩ := quot_range n r hn hr0 hr
    obtain ⟨h1, h2⟩ := (mem_bucket_iff n (12 * r / n) r hn).mpr rfl
    exact ⟨_, _, _, cityForRow_eq n r hn hb hr0 hr, rowsForCity_small n _ hn hb q0 q11, h1, h2⟩

/-- C2, witness: the theorem applied to 50 rows. -/
theorem city_round_trip_witness :
    (12 : Int) ≤ 50 ∧ (50 : Int) ≤ 2 ^ 48 ∧
    ((∀ c, 0 ≤ c → c ≤ 11 → ∃ mn mx, cityDistributor.rowsForCity ⟨50⟩ c = some (mn, mx) ∧
        ∀ r, mn ≤ r → r < mx → cityDistributor.cityForRow ⟨50⟩ r = some c) ∧
    (∀ r, 0 ≤ r → r < 50 → ∃ c mn mx, cityDistributor.cityForRow ⟨50⟩ r = some c ∧
        cityDistributor.rowsForCity ⟨50⟩ c = some (mn, mx) ∧ mn ≤ r ∧ r < mx)) :=
  ⟨by decide, by decide, city_round_trip 50 (by decide) (by decide)⟩

set_option maxRecDepth 100000 in
/-- C2, counterexample: with 614583952109015 rows (about `2 ^ 49.1`) row
563368622766597 is the first row of the range of city 11, yet `cityForRow`
maps it to city 10. -/
theorem city_round_trip_fails :
    (12 : Int) ≤ 614583952109015 ∧
    cityDistributor.rowsForCity ⟨614583952109015⟩ 11
      = some (563368622766597, 614583952109015) ∧
    cityDistributor.cityForRow ⟨614583952109015⟩ 563368622766597 = some 10 := by
  refine ⟨by decide, by decide, by decide⟩

/-- C4: `cityForRow` is monotonic non-decreasing in the row index, for every
row count of at least twelve: both calls return and the city of row `i` is at
most the city of row `i + 1`. -/
theorem cityForRow_monotone (n i : Int) (hn : 12 ≤ n) (hi : 0 ≤ i) (hi1 : i + 1 < n) :
    ∃ a b : Int, cityDistributor.cityForRow ⟨n⟩ i = some a ∧
      cityDistributor.cityForRow ⟨n⟩ (i + 1) = some b ∧ a ≤ b :=
  cityForRow_mono n i (i + 1) hn hi (by omega) hi1

/-- C4, witness: rows 4 and 5 of 50. -/
theorem cityForRow_monotone_witness :
    (12 : Int) ≤ 50 ∧ (0 : Int) ≤ 4 ∧ (4 : Int) + 1 < 50 ∧
    ∃ a b : Int, cityDistributor.cityForRow ⟨50⟩ 4 = some a ∧
      cityDistributor.cityForRow ⟨50⟩ (4 + 1) = some b ∧ a ≤ b :=
  ⟨by decide, by decide, by decide, cityForRow_monotone 50 4 (by decide) (by decide) (by decide)⟩

/-- Up to `2 ^ 62` rows the buckets are never empty, so `randRowInCity` always
returns a row of the bucket. -/
theorem randRowInCity_some (n c : Int) (rng : Rand) (hn : 12 ≤ n) (hb : n ≤ 2 ^ 62)
    (hc0 : 0 ≤ c) (hc : c ≤ 11) :
    ∃ mn mx r rng', cityDistributor.rowsForCity ⟨n⟩ c = some (mn, mx) ∧
      0 ≤ mn ∧ mn < mx ∧ mx ≤ n ∧
      cityDistributor.randRowInCity ⟨n⟩ rng c = some (r, rng') ∧ mn ≤ r ∧ r < mx := by
  obtain ⟨g1, g2⟩ := rawBound_gap n c hn hb hc0 hc
  have g0 := rawBound_nonneg n c hn hb hc0 (by omega)
  have hrows := rowsForCity_raw n c hn
  rw [if_neg (by omega : ¬ rawBound n c ≥ n)] at hrows
  have hmx : (if rawBound n (c + 1) ≥ n then n else rawBound n (c + 1)) ≤ n := by
    split <;> omega
  have hlt : rawBound n c < (if rawBound n (c + 1) ≥ n then n else rawBound n (c + 1)) := by
    split <;> omega
  generalize (if rawBound n (c + 1) ≥ n then n else rawBound n (c + 1)) = mx at *
  have hpos : ¬ (mx - rawBound n c ≤ 0) := by omega
  have hv0 := Int.emod_nonneg (rng.stream rng.pos : Int) (by omega : mx - rawBound n c ≠ 0)
  have hv1 := Int.emod_lt_of_pos (rng.stream rng.pos : Int) (by omega : 0 < mx - rawBound n c)
  have hw1 : wrap64 (mx - rawBound n c) = mx - rawBound n c :=
    wrap64_id _ (by omega) (by omega)
  have hw2 : wrap64 (rawBound n c + (rng.stream rng.pos : Int) % (mx - rawBound n c))
      = rawBound n c + (rng.stream rng.pos : Int) % (mx - rawBound n c) :=
    wrap64_id _ (by omega) (by omega)
  refine ⟨rawBound n c, mx, rawBound n c + (rng.stream rng.pos : Int) % (mx - rawBound n c),
    ⟨rng.stream, rng.pos + 1⟩, hrows, g0, hlt, hmx, ?_, by omega, by omega⟩
  unfold cityDistributor.randRowInCity
  rw [hrows]
  simp only [hw1, Rand.Intn, if_neg hpos, hw2]

/-- C6 (amended): for `12 ≤ numRows ≤ 2 ^ 62` and every city `0..11`,
`rowsForCity` returns `0 ≤ min < max ≤ numRows`, and `randRowInCity` returns
(the bound handed to `Intn` is positive) a row index in `[min, max)`, whatever
the random source draws. -/
theorem randRowInCity_in_range (n c : Int) (rng : Rand) (hn : 12 ≤ n) (hb : n ≤ 2 ^ 62)
    (hc0 : 0 ≤ c) (hc : c ≤ 11) :
    ∃ mn mx r rng', cityDistributor.rowsForCity ⟨n⟩ c = some (mn, mx) ∧
      0 ≤ mn ∧ mn < mx ∧ mx ≤ n ∧
      cityDistributor.randRowInCity ⟨n⟩ rng c = some (r, rng') ∧ mn ≤ r ∧ r < mx :=
  randRowInCity_some n c rng hn hb hc0 hc

/-- C6, witness: city 3 of a table of 15 rows. -/
theorem randRowInCity_in_range_witness :
    (12 : Int) ≤ 15 ∧ (15 : Int) ≤ 2 ^ 62 ∧ (0 : Int) ≤ 3 ∧ (3 : Int) ≤ 11 ∧
    ∃ mn mx r rng', cityDistributor.rowsForCity ⟨15⟩ 3 = some (mn, mx) ∧
      0 ≤ mn ∧ mn < mx ∧ mx ≤ 15 ∧
      cityDistributor.randRowInCity ⟨15⟩ ⟨fun k => k, 0⟩ 3 = some (r, rng') ∧
      mn ≤ r ∧ r < mx :=
  ⟨by decide, by decide, by decide, by decide,
    randRowInCity_in_range 15 3 ⟨fun k => k, 0⟩ (by decide) (by decide) (by decide)
      (by decide)⟩

set_option maxRecDepth 100000 in
/-- C6, counterexample: with `2 ^ 63 - 1` rows (the largest `int`) the upper
bound of the last city is the float `2 ^ 53 * 2 ^ 10`, which no `int` holds: the
conversion yields `-2 ^ 63`, the cut at `numRows` does not apply, and
`rowsForCity` returns `max < min`; the row `randRowInCity` then returns is not
below `max`. -/
theorem randRowInCity_in_range_fails :
    (12 : Int) ≤ 9223372036854775807 ∧
    F64.mul (F64.ofInt (11 + 1)) (numPerCity 9223372036854775807) = ⟨2 ^ 53, 10⟩ ∧
    cityDistributor.rowsForCity ⟨9223372036854775807⟩ 11
      = some (8454757700450210816, -9223372036854775808) ∧
    (cityDistributor.randRowInCity ⟨9223372036854775807⟩ ⟨fun _ => 0, 0⟩ 11).map Prod.fst
      = some 8454757700450210816 ∧
    ¬ ((8454757700450210816 : Int) < -9223372036854775808) := by
  refine ⟨by decide, by decide, by decide, by decide, by decide⟩

/-- C10 (amended): for `12 ≤ numRows ≤ 2 ^ 51` and `0 ≤ rowIdx < numRows` the
city index is in `0..11` and the lookup `cities[cityIdx]` succeeds; for
`numRows < 12` both `cityForRow` and `rowsForCity` panic. -/
theorem cityIdx_in_bounds (n r c : Int) :
    (12 ≤ n → n ≤ 2 ^ 51 → 0 ≤ r → r < n →
      ∃ ci city, cityDistributor.cityForRow ⟨n⟩ r = some ci ∧ 0 ≤ ci ∧ ci ≤ 11 ∧
        cityAt ci = some city) ∧
    (n < 12 → cityDistributor.cityForRow ⟨n⟩ r = none ∧
      cityDistributor.rowsForCity ⟨n⟩ c = none) := by
  constructor
  · intro hn hb hr0 hr
    obtain ⟨ci, hci, q0, q11⟩ := cityForRow_range n r hn hb hr0 hr
    obtain ⟨city, hcity⟩ := cityAt_some _ q0 q11
    exact ⟨ci, city, hci, q0, q11, hcity⟩
  · intro hn
    have h : n < (cities.length : Int) := by rw [cities_length]; exact hn
    constructor
    · unfold cityDistributor.cityForRow
      rw [if_pos h]
    · unfold cityDistributor.rowsForCity
      rw [if_pos h]

/-- C10, witness: the last row of 50, and a table of 5 rows. -/
theorem cityIdx_in_bounds_witness :
    (∃ ci city, cityDistributor.cityForRow ⟨50⟩ 49 = some ci ∧ 0 ≤ ci ∧ ci ≤ 11 ∧
        cityAt ci = some city) ∧
    (cityDistributor.cityForRow ⟨5⟩ 3 = none ∧ cityDistributor.rowsForCity ⟨5⟩ 3 = none) :=
  ⟨(cityIdx_in_bounds 50 49 0).1 (by decide) (by decide) (by decide) (by decide),
    (cityIdx_in_bounds 5 3 3).2 (by decide)⟩

set_option maxRecDepth 100000 in
/-- C10, counterexample: with `2 ^ 53 + 1` rows the last row index `2 ^ 53` is
mapped to city 12, outside the twelve-entry list, so `cities[cityIdx]` panics. -/
theorem cityIdx_in_bounds_fails :
    (12 : Int) ≤ 9007199254740993 ∧ (0 : Int) ≤ 9007199254740992 ∧
    (9007199254740992 : Int) < 9007199254740993 ∧
    cityDistributor.cityForRow ⟨9007199254740993⟩ 9007199254740992 = some 12 ∧
    cityAt 12 = none := by
  refine ⟨by decide, by decide, by decide, by decide, by decide⟩

/-- The row `movrUsersInitialRow` builds once the city lookup has succeeded. -/
theorem usersRow_of_city (P : Provider) (g : movr) (rowIdx c : Int) (city : City)
    (h1 : g.users.cityForRow rowIdx = some c) (h2 : cityAt c = some city) :
    ∃ name address creditCard, g.movrUsersInitialRow P rowIdx
      = some [Datum.str (P.deterministicV4 (toUint64 rowIdx) (toUint64 g.users.numRows)),
          Datum.str city.city, Datum.str name, Datum.str address, Datum.str creditCard] := by
  unfold movr.movrUsersInitialRow
  simp only [h1, h2]
  exact ⟨_, _, _, rfl⟩

/-- The row `movrVehiclesInitialRow` builds once the city lookup, the choice
of the owner row and the generation of the owner have succeeded. -/
theorem vehiclesRow_of_owner (P : Provider) (g : movr) (rowIdx c owner : Int) (city : City)
    (rng2 : Rand) (urow : List Datum) (ownerID : Datum)
    (h1 : g.vehicles.cityForRow rowIdx = some c) (h2 : cityAt c = some city)
    (h3 : g.users.randRowInCity (P.randVehicleType (P.newRand (g.rowSeed rowIdx))).2 c
      = some (owner, rng2))
    (h4 : g.movrUsersInitialRow P owner = some urow) (h5 : urow.get? 0 = some ownerID) :
    ∃ vehicleType status location ext, g.movrVehiclesInitialRow P rowIdx
      = some [Datum.str (P.deterministicV4 (toUint64 rowIdx) (toUint64 g.vehicles.numRows)),
          Datum.str city.city, Datum.str vehicleType, ownerID,
          formatTimestamp g.creationTime, Datum.str status, Datum.str location,
          Datum.str ext] := by
  unfold movr.movrVehiclesInitialRow
  simp only [h1, h2, h3, h4, Option.bind, h5]
  exact ⟨_, _, _, _, rfl⟩

theorem digitChar_val (d : Nat) (hd : d < 10) : (digitChar d).toNat - 48 = d := by
  interval_cases d <;> rfl

theorem digitChar_ne_underscore (d : Nat) : digitChar d ≠ '_' := by
  unfold digitChar
  split <;> decide

theorem digitsVal_append (l : List Char) (ch : Char) :
    digitsVal (l ++ [ch]) = 10 * digitsVal l + (ch.toNat - 48) := by
  unfold digitsVal
  rw [List.foldl_append]
  rfl

theorem decimalDigits_val : ∀ (fuel n : Nat), n < fuel → digitsVal (decimalDigits fuel n) = n
  | 0, n, h => by omega
  | fuel + 1, n, h => by
    unfold decimalDigits
    rw [digitsVal_append, digitChar_val _ (Nat.mod_lt n (by norm_num))]
    by_cases h10 : n < 10
    · rw [if_pos h10]
      have : digitsVal [] = 0 := rfl
      rw [this]
      omega
    · rw [if_neg h10, decimalDigits_val fuel (n / 10) (by omega)]
      omega

theorem decimalDigits_no_underscore : ∀ (fuel n : Nat), '_' ∉ decimalDigits fuel n
  | 0, n => by simp [decimalDigits]
  | fuel + 1, n => by
    unfold decimalDigits
    intro h
    rcases List.mem_append.mp h with h | h
    · by_cases h10 : n < 10
      · rw [if_pos h10] at h; simp at h
      · rw [if_neg h10] at h
        exact decimalDigits_no_underscore fuel (n / 10) h
    · rw [List.mem_singleton] at h
      exact digitChar_ne_underscore _ h.symm

theorem formatInt_nonneg (i : Int) (hi : 0 ≤ i) :
    formatInt i = String.mk (decimalDigits (i.toNat + 1) i.toNat) := by
  unfold formatInt
  rw [if_neg (by omega)]

theorem formatInt_inj (i j : Int) (hi : 0 ≤ i) (hj : 0 ≤ j) (h : formatInt i = formatInt j) :
    i = j := by
  rw [formatInt_nonneg i hi, formatInt_nonneg j hj] at h
  have hd : decimalDigits (i.toNat + 1) i.toNat = decimalDigits (j.toNat + 1) j.toNat := by
    injection h
  have hv := congrArg digitsVal hd
  rw [decimalDigits_val _ _ (by omega), decimalDigits_val _ _ (by omega)] at hv
  omega

theorem first_segment_unique : ∀ (d₁ d₂ r₁ r₂ : List Char), '_' ∉ d₁ → '_' ∉ d₂ →
    d₁ ++ '_' :: r₁ = d₂ ++ '_' :: r₂ → d₁ = d₂
  | [], [], _, _, _, _, _ => rfl
  | [], b :: d₂, r₁, r₂, _, h2, h => by
    simp only [List.nil_append, List.cons_append, List.cons.injEq] at h
    exact absurd (by rw [h.1]; exact List.mem_cons_self _ _) h2
  | a :: d₁, [], r₁, r₂, h1, _, h => by
    simp only [List.nil_append, List.cons_append, List.cons.injEq] at h
    exact absurd (by rw [← h.1]; exact List.mem_cons_self _ _) h1
  | a :: d₁, b :: d₂, r₁, r₂, h1, h2, h => by
    simp only [List.cons_append, List.cons.injEq] at h
    rw [h.1, first_segment_unique d₁ d₂ r₁ r₂
      (fun hm => h1 (List.mem_cons_of_mem _ hm)) (fun hm => h2 (List.mem_cons_of_mem _ hm)) h.2]

theorem last_segment_unique (l₁ l₂ d₁ d₂ : List Char) (h1 : '_' ∉ d₁) (h2 : '_' ∉ d₂)
    (h : l₁ ++ '_' :: d₁ = l₂ ++ '_' :: d₂) : d₁ = d₂ := by
  have hr := congrArg List.reverse h
  simp only [List.reverse_append, List.reverse_cons, List.append_assoc, List.singleton_append]
    at hr
  have := first_segment_unique d₁.reverse d₂.reverse l₁.reverse l₂.reverse
    (by simpa using h1) (by simpa using h2) hr
  exact List.reverse_injective this

/-- Codes ending in the decimal row index differ for different row indexes,
whatever stands before the last underscore. -/
theorem code_ne (s t : String) (i j : Int) (hi : 0 ≤ i) (hj : 0 ≤ j) (hij : i ≠ j) :
    s ++ "_" ++ formatInt i ≠ t ++ "_" ++ formatInt j := by
  intro h
  have hd := congrArg String.data h
  simp only [String.data_append] at hd
  rw [formatInt_nonneg i hi, formatInt_nonneg j hj] at hd
  simp only [List.append_assoc, List.singleton_append] at hd
  have := last_segment_unique _ _ _ _ (decimalDigits_no_underscore _ _)
    (decimalDigits_no_underscore _ _) hd
  apply hij
  apply formatInt_inj i j hi hj
  rw [formatInt_nonneg i hi, formatInt_nonneg j hj, this]

theorem Rand.Intn_pos (rng : Rand) (n : Int) (h : 0 < n) :
    rng.Intn n = some ((rng.stream rng.pos : Int) % n, ⟨rng.stream, rng.pos + 1⟩) := by
  unfold Rand.Intn
  rw [if_neg (by omega)]

/-- A users row is produced for every row index of a table of `12..2^48` rows. -/
theorem usersRow_some (P : Provider) (g : movr) (r : Int) (hu : 12 ≤ g.users.numRows)
    (hub : g.users.numRows ≤ 2 ^ 48) (hr0 : 0 ≤ r) (hr : r < g.users.numRows) :
    ∃ city name address creditCard, cityAt (12 * r / g.users.numRows) = some city ∧
      g.movrUsersInitialRow P r
        = some [Datum.str (P.deterministicV4 (toUint64 r) (toUint64 g.users.numRows)),
            Datum.str city.city, Datum.str name, Datum.str address, Datum.str creditCard] := by
  have h1 : g.users.cityForRow r = some (12 * r / g.users.numRows) :=
    cityForRow_eq g.users.numRows r hu hub hr0 hr
  obtain ⟨q0, q11⟩ := quot_range g.users.numRows r hu hr0 hr
  obtain ⟨city, h2⟩ := cityAt_some _ q0 q11
  obtain ⟨name, address, cc, h⟩ := usersRow_of_city P g r _ city h1 h2
  exact ⟨city, name, address, cc, h2, h⟩

/-- A row drawn by `randRowInCity` from a table of `12..2^48` rows is a row of
that table which `cityForRow` maps back to the city. -/
theorem randRowInCity_city (n c : Int) (rng : Rand) (hn : 12 ≤ n) (hb : n ≤ 2 ^ 48)
    (hc0 : 0 ≤ c) (hc : c ≤ 11) :
    ∃ j rng', cityDistributor.randRowInCity ⟨n⟩ rng c = some (j, rng') ∧
      0 ≤ j ∧ j < n ∧ 12 * j / n = c := by
  obtain ⟨mn, mx, j, rng', hrows, h0, _, hmx, hrand, hj1, hj2⟩ :=
    randRowInCity_some n c rng hn (by omega) hc0 hc
  refine ⟨j, rng', hrand, by omega, by omega, ?_⟩
  rw [rowsForCity_small n c hn hb hc0 hc] at hrows
  simp only [Option.some.injEq, Prod.mk.injEq] at hrows
  obtain ⟨e1, e2⟩ := hrows
  subst e1 e2
  exact ((mem_bucket_iff n c j hn).mp ⟨hj1, hj2⟩).symm

/-- A vehicles row is produced for every row index, and its owner is a users
row of the same city. -/
theorem vehiclesRow_some (P : Provider) (g : movr) (i : Int)
    (hu : 12 ≤ g.users.numRows) (hub : g.users.numRows ≤ 2 ^ 48)
    (hv : 12 ≤ g.vehicles.numRows) (hvb : g.vehicles.numRows ≤ 2 ^ 48)
    (hi0 : 0 ≤ i) (hi : i < g.vehicles.numRows) :
    ∃ city j vehicleType status location ext,
      cityAt (12 * i / g.vehicles.numRows) = some city ∧
      0 ≤ j ∧ j < g.users.numRows ∧ 12 * j / g.users.numRows = 12 * i / g.vehicles.numRows ∧
      g.movrVehiclesInitialRow P i
        = some [Datum.str (P.deterministicV4 (toUint64 i) (toUint64 g.vehicles.numRows)),
            Datum.str city.city, Datum.str vehicleType,
            Datum.str (P.deterministicV4 (toUint64 j) (toUint64 g.users.numRows)),
            formatTimestamp g.creationTime, Datum.str status, Datum.str location,
            Datum.str ext] := by
  have h1 : g.vehicles.cityForRow i = some (12 * i / g.vehicles.numRows) :=
    cityForRow_eq g.vehicles.numRows i hv hvb hi0 hi
  obtain ⟨q0, q11⟩ := quot_range g.vehicles.numRows i hv hi0 hi
  obtain ⟨city, h2⟩ := cityAt_some _ q0 q11
  obtain ⟨j, rng2, h3, hj0, hj, hjc⟩ := randRowInCity_city g.users.numRows
    (12 * i / g.vehicles.numRows) (P.randVehicleType (P.newRand (g.rowSeed i))).2 hu hub q0 q11
  have h3' : g.users.randRowInCity (P.randVehicleType (P.newRand (g.rowSeed i))).2
      (12 * i / g.vehicles.numRows) = some (j, rng2) := h3
  obtain ⟨ucity, name, address, cc, _, h4⟩ := usersRow_some P g j hu hub hj0 hj
  obtain ⟨vt, st, loc, ext, h5⟩ :=
    vehiclesRow_of_owner P g i _ j city rng2 _ _ h1 h2 h3' h4 rfl
  exact ⟨city, j, vt, st, loc, ext, h2, hj0, hj, hjc, h5⟩

/-- C3 (amended): when the users and the vehicles table both have between 12
and `2 ^ 48` rows, every vehicle row is produced and its `owner_id` (index 3)
is the `id` (index 0) of a users row `j` of `[0, users.numRows)` whose city
(index 1) is the city (index 1) of the vehicle; for every seed and every
random source. -/
theorem vehicle_owner_integrity (P : Provider) (g : movr) (i : Int)
    (hu : 12 ≤ g.users.numRows) (hub : g.users.numRows ≤ 2 ^ 48)
    (hv : 12 ≤ g.vehicles.numRows) (hvb : g.vehicles.numRows ≤ 2 ^ 48)
    (hi0 : 0 ≤ i) (hi : i < g.vehicles.numRows) :
    ∃ vrow j urow ownerID city, g.movrVehiclesInitialRow P i = some vrow ∧
      0 ≤ j ∧ j < g.users.numRows ∧ g.movrUsersInitialRow P j = some urow ∧
      vrow.get? 3 = some ownerID ∧ urow.get? 0 = some ownerID ∧
      vrow.get? 1 = some city ∧ urow.get? 1 = some city := by
  obtain ⟨city, j, vt, st, loc, ext, h2, hj0, hj, hjc, hrow⟩ :=
    vehiclesRow_some P g i hu hub hv hvb hi0 hi
  obtain ⟨ucity, name, address, cc, hc, hurow⟩ := usersRow_some P g j hu hub hj0 hj
  rw [hjc, h2] at hc
  have : ucity = city := by injection hc with h; exact h.symm
  subst this
  exact ⟨_, j, _, _, Datum.str ucity.city, hrow, hj0, hj, hurow, rfl, rfl, rfl, rfl⟩

/-- C3, witness: vehicle row 7 of the default configuration (a random source
that always draws zero). -/
theorem vehicle_owner_integrity_witness :
    (12 : Int) ≤ movrDefault.users.numRows ∧ movrDefault.users.numRows ≤ 2 ^ 48 ∧
    (12 : Int) ≤ movrDefault.vehicles.numRows ∧ movrDefault.vehicles.numRows ≤ 2 ^ 48 ∧
    (0 : Int) ≤ 7 ∧ 7 < movrDefault.vehicles.numRows ∧
    ∃ vrow j urow ownerID city, movrDefault.movrVehiclesInitialRow zeroProvider 7 = some vrow ∧
      0 ≤ j ∧ j < movrDefault.users.numRows ∧
      movrDefault.movrUsersInitialRow zeroProvider j = some urow ∧
      vrow.get? 3 = some ownerID ∧ urow.get? 0 = some ownerID ∧
      vrow.get? 1 = some city ∧ urow.get? 1 = some city :=
  ⟨by decide, by decide, by decide, by decide, by decide, by decide,
    vehicle_owner_integrity zeroProvider movrDefault 7 (by decide) (by decide) (by decide)
      (by decide) (by decide) (by decide)⟩

theorem usersRow_shape (P : Provider) (g : movr) (r : Int) (urow : List Datum)
    (h : g.movrUsersInitialRow P r = some urow) :
    ∃ c city name address creditCard, g.users.cityForRow r = some c ∧ cityAt c = some city ∧
      urow = [Datum.str (P.deterministicV4 (toUint64 r) (toUint64 g.users.numRows)),
          Datum.str city.city, Datum.str name, Datum.str address, Datum.str creditCard] := by
  unfold movr.movrUsersInitialRow at h
  cases h1 : g.users.cityForRow r with
  | none => simp [h1] at h
  | some c =>
    cases h2 : cityAt c with
    | none => simp [h1, h2] at h
    | some city =>
      simp only [h1, h2] at h
      injection h with h
      exact ⟨c, city, _, _, _, rfl, h2, h.symm⟩

set_option maxRecDepth 1000000 in
/-- C3, counterexample: with 614583952109015 users, vehicle row 11 lies in
"rome" and its owner is users row 563368622766597, which lies in "paris"; no
users row carries that identifier together with the city of the vehicle. -/
theorem vehicle_owner_integrity_fails :
    manyUsers.movrVehiclesInitialRow zeroProvider 11
      = some [Datum.str "11", Datum.str "rome", Datum.str "", Datum.str "563368622766597",
          Datum.timestamp 1546398245000000, Datum.str "", Datum.str "", Datum.str ""] ∧
    manyUsers.movrUsersInitialRow zeroProvider 563368622766597
      = some [Datum.str "563368622766597", Datum.str "paris", Datum.str "", Datum.str "",
          Datum.str ""] ∧
    ¬ ∃ j urow, 0 ≤ j ∧ j < manyUsers.users.numRows ∧
        manyUsers.movrUsersInitialRow zeroProvider j = some urow ∧
        urow.get? 0 = some (Datum.str "563368622766597") ∧
        urow.get? 1 = some (Datum.str "rome") := by
  have hu : manyUsers.movrUsersInitialRow zeroProvider 563368622766597
      = some [Datum.str "563368622766597", Datum.str "paris", Datum.str "", Datum.str "",
          Datum.str ""] := by decide
  refine ⟨by decide, hu, ?_⟩
  rintro ⟨j, urow, hj0, hj, hrow, hid, hcity⟩
  obtain ⟨c, city, name, address, cc, _, _, hshape⟩ := usersRow_shape _ _ _ _ hrow
  rw [hshape] at hid
  simp only [List.get?_cons_zero, Option.some.injEq, Datum.str.injEq] at hid
  have hfmt : formatInt ((toUint64 j : Nat) : Int) = formatInt 563368622766597 := by
    rw [← (by decide : formatInt 563368622766597 = "563368622766597")] at hid
    exact hid
  have hj2 : ((toUint64 j : Nat) : Int) = 563368622766597 :=
    formatInt_inj _ _ (Int.natCast_nonneg _) (by decide) hfmt
  have hjn : manyUsers.users.numRows = 614583952109015 := rfl
  have hjv : j = 563368622766597 := by
    unfold toUint64 at hj2
    omega
  subst hjv
  rw [hu] at hrow
  injection hrow with hrow
  rw [← hrow] at hcity
  revert hcity
  decide

/-- C5: `Validate` returns an error exactly when one of the four row counts
is below 12; every error message reads "at least 12 ... are required"; the
default counts pass and five users are refused. -/
theorem validate_spec (g : movr) :
    ((∃ msg, g.Validate = some msg) ↔
      (g.users.numRows < 12 ∨ g.vehicles.numRows < 12 ∨ g.rides.numRows < 12 ∨
        g.histories.numRows < 12)) ∧
    (∀ msg, g.Validate = some msg → ∃ what, what ∈ ["users", "vehicles", "rides", "histories"] ∧
      msg = "at least 12 " ++ what ++ " are required") ∧
    movrDefault.Validate = none ∧
    ({ movrDefault with users := { numRows := 5 } } : movr).Validate
      = some "at least 12 users are required" := by
  have e12 : formatInt (12 : Int) = "12" := by decide
  refine ⟨?_, ?_, by decide, by decide⟩
  · unfold movr.Validate
    rw [cities_length]
    constructor
    · rintro ⟨msg, h⟩
      split_ifs at h <;> omega
    · intro h
      split_ifs <;> first | exact ⟨_, rfl⟩ | omega
  · intro msg h
    unfold movr.Validate at h
    rw [cities_length, e12] at h
    split_ifs at h
    · exact ⟨"users", by simp, by injection h with h; rw [← h]; decide⟩
    · exact ⟨"vehicles", by simp, by injection h with h; rw [← h]; decide⟩
    · exact ⟨"rides", by simp, by injection h with h; rw [← h]; decide⟩
    · exact ⟨"histories", by simp, by injection h with h; rw [← h]; decide⟩

theorem wrap_days (a : Int) (h0 : 0 ≤ a) (h1 : a < 30) :
    wrap64 (wrap64 (wrap64 (-a) * 24) * hour) = -(a * (24 * hour)) := by
  unfold hour wrap64
  omega

/-- What `movrPromoCodesInitialRow` builds: three words, the row index, and two
times `a` and `a + b` days before the epoch, `a` and `b` drawn from `[0, 30)`. -/
theorem promoRow_spec (P : Provider) (g : movr) (i : Int) :
    ∃ (w₀ w₁ w₂ description : String) (a b : Int), 0 ≤ a ∧ a < 30 ∧ 0 ≤ b ∧ b < 30 ∧
      g.movrPromoCodesInitialRow P i
        = some [Datum.str (String.intercalate "_" [w₀, w₁, w₂] ++ "_" ++ formatInt i),
            Datum.str description,
            Datum.time (g.creationTime - a * (24 * hour) - b * (24 * hour)),
            Datum.time (g.creationTime - a * (24 * hour)), Datum.str rulesJSON] := by
  have hrow : g.movrPromoCodesInitialRow P i
      = some [Datum.str (String.intercalate "_"
            [(P.randWord (P.newRand (g.rowSeed i))).1,
             (P.randWord (P.randWord (P.newRand (g.rowSeed i))).2).1,
             (P.randWord (P.randWord (P.randWord (P.newRand (g.rowSeed i))).2).2).1]
              ++ "_" ++ formatInt i),
          Datum.str (P.randParagraph
            (P.randWord (P.randWord (P.randWord (P.newRand (g.rowSeed i))).2).2).2).1,
          Datum.time (g.creationTime
            + wrap64 (wrap64 (wrap64 (-(((P.randParagraph (P.randWord (P.randWord
                (P.randWord (P.newRand (g.rowSeed i))).2).2).2).2.stream
              (P.randParagraph (P.randWord (P.randWord
                (P.randWord (P.newRand (g.rowSeed i))).2).2).2).2.pos : Int) % 30)) * 24) * hour)
            + wrap64 (wrap64 (wrap64 (-(((P.randParagraph (P.randWord (P.randWord
                (P.randWord (P.newRand (g.rowSeed i))).2).2).2).2.stream
              ((P.randParagraph (P.randWord (P.randWord
                (P.randWord (P.newRand (g.rowSeed i))).2).2).2).2.pos + 1) : Int) % 30)) * 24)
                * hour)),
          Datum.time (g.creationTime
            + wrap64 (wrap64 (wrap64 (-(((P.randParagraph (P.randWord (P.randWord
                (P.randWord (P.newRand (g.rowSeed i))).2).2).2).2.stream
              (P.randParagraph (P.randWord (P.randWord
                (P.randWord (P.newRand (g.rowSeed i))).2).2).2).2.pos : Int) % 30)) * 24) * hour)),
          Datum.str rulesJSON] := by
    unfold movr.movrPromoCodesInitialRow
    simp only [Rand.Intn_pos _ 30 (by norm_num)]
  generalize (P.randParagraph (P.randWord (P.randWord
    (P.randWord (P.newRand (g.rowSeed i))).2).2).2).2 = rng at hrow
  have ha0 := Int.emod_nonneg (rng.stream rng.pos : Int) (by norm_num : (30 : Int) ≠ 0)
  have ha1 := Int.emod_lt_of_pos (rng.stream rng.pos : Int) (by norm_num : (0 : Int) < 30)
  have hb0 := Int.emod_nonneg (rng.stream (rng.pos + 1) : Int) (by norm_num : (30 : Int) ≠ 0)
  have hb1 := Int.emod_lt_of_pos (rng.stream (rng.pos + 1) : Int) (by norm_num : (0 : Int) < 30)
  rw [wrap_days _ ha0 ha1, wrap_days _ hb0 hb1] at hrow
  simp only [← sub_eq_add_neg] at hrow
  exact ⟨_, _, _, _, _, _, ha0, ha1, hb0, hb1, hrow⟩

/-- C7 (amended): every promo-code row is produced, its `expiration_time` is
the epoch minus `a` days and its `creation_time` the `expiration_time` minus
`b` days, `a` and `b` drawn from `[0, 30)`; hence `creation_time` is never
after `expiration_time`, and strictly before it exactly when `b` is not 0. -/
theorem promo_times (P : Provider) (g : movr) (i : Int) :
    ∃ (code description : String) (creation expiration a b : Int),
      g.movrPromoCodesInitialRow P i
        = some [Datum.str code, Datum.str description, Datum.time creation,
            Datum.time expiration, Datum.str rulesJSON] ∧
      0 ≤ a ∧ a < 30 ∧ 0 ≤ b ∧ b < 30 ∧
      expiration = g.creationTime - a * (24 * hour) ∧
      creation = expiration - b * (24 * hour) ∧
      creation ≤ expiration ∧ (creation < expiration ↔ 0 < b) := by
  obtain ⟨w₀, w₁, w₂, d, a, b, ha0, ha1, hb0, hb1, hrow⟩ := promoRow_spec P g i
  refine ⟨_, _, _, _, a, b, hrow, ha0, ha1, hb0, hb1, rfl, rfl, ?_, ?_⟩
  · unfold hour; omega
  · unfold hour; omega

set_option maxRecDepth 1000000 in
/-- C7, counterexample: when the second draw is 0 (here both draws are) the
`creation_time` of promo-code row 7 equals its `expiration_time`. -/
theorem promo_times_fails :
    movrDefault.movrPromoCodesInitialRow zeroProvider 7
      = some [Datum.str "___7", Datum.str "", Datum.time 1546398245000000006,
          Datum.time 1546398245000000006, Datum.str rulesJSON] ∧
    ¬ ((1546398245000000006 : Int) < 1546398245000000006) := by
  refine ⟨by decide, by decide⟩

/-- C8: promo-code rows with different non-negative row indexes carry
different codes, whatever words the provider returns for either row (the two
rows may even come from different providers and generators). -/
theorem promo_codes_distinct (P P' : Provider) (g g' : movr) (i j : Int)
    (hi : 0 ≤ i) (hj : 0 ≤ j) (hij : i ≠ j) :
    ∃ ci cj : String,
      (g.movrPromoCodesInitialRow P i).bind (fun row => row.get? 0) = some (Datum.str ci) ∧
      (g'.movrPromoCodesInitialRow P' j).bind (fun row => row.get? 0) = some (Datum.str cj) ∧
      ci ≠ cj := by
  obtain ⟨w₀, w₁, w₂, d, a, b, _, _, _, _, hrow⟩ := promoRow_spec P g i
  obtain ⟨v₀, v₁, v₂, d', a', b', _, _, _, _, hrow'⟩ := promoRow_spec P' g' j
  refine ⟨_, _, by rw [hrow]; rfl, by rw [hrow']; rfl, ?_⟩
  exact code_ne _ _ i j hi hj hij

/-- C8, witness: rows 3 and 4 of the default configuration. -/
theorem promo_codes_distinct_witness :
    (0 : Int) ≤ 3 ∧ (0 : Int) ≤ 4 ∧ (3 : Int) ≠ 4 ∧
    ∃ ci cj : String,
      (movrDefault.movrPromoCodesInitialRow zeroProvider 3).bind (fun row => row.get? 0)
        = some (Datum.str ci) ∧
      (movrDefault.movrPromoCodesInitialRow zeroProvider 4).bind (fun row => row.get? 0)
        = some (Datum.str cj) ∧
      ci ≠ cj :=
  ⟨by decide, by decide, by decide,
    promo_codes_distinct zeroProvider zeroProvider movrDefault movrDefault 3 4
      (by decide) (by decide) (by decide)⟩

theorem randRowInCity_row (n c : Int) (rng : Rand) (hn : 12 ≤ n) (hb : n ≤ 2 ^ 62)
    (hc0 : 0 ≤ c) (hc : c ≤ 11) :
    ∃ j rng', cityDistributor.randRowInCity ⟨n⟩ rng c = some (j, rng') ∧ 0 ≤ j ∧ j < n := by
  obtain ⟨mn, mx, j, rng', _, h0, _, hmx, hrand, hj1, hj2⟩ :=
    randRowInCity_some n c rng hn hb hc0 hc
  exact ⟨j, rng', hrand, by omega, by omega⟩

/-- A users row is produced for every row index of a table of `12..2^51` rows. -/
theorem usersRow_prod (P : Provider) (g : movr) (r : Int) (hu : 12 ≤ g.users.numRows)
    (hub : g.users.numRows ≤ 2 ^ 51) (hr0 : 0 ≤ r) (hr : r < g.users.numRows) :
    ∃ row id, g.movrUsersInitialRow P r = some row ∧ row.get? 0 = some id := by
  obtain ⟨c, h1, q0, q11⟩ := cityForRow_range g.users.numRows r hu hub hr0 hr
  have h1' : g.users.cityForRow r = some c := h1
  obtain ⟨city, h2⟩ := cityAt_some _ q0 q11
  obtain ⟨name, address, cc, h⟩ := usersRow_of_city P g r _ city h1' h2
  exact ⟨_, _, h, rfl⟩

/-- A vehicles row is produced for every row index when the users and the
vehicles table have `12..2^51` rows. -/
theorem vehiclesRow_prod (P : Provider) (g : movr) (i : Int)
    (hu : 12 ≤ g.users.numRows) (hub : g.users.numRows ≤ 2 ^ 51)
    (hv : 12 ≤ g.vehicles.numRows) (hvb : g.vehicles.numRows ≤ 2 ^ 51)
    (hi0 : 0 ≤ i) (hi : i < g.vehicles.numRows) :
    ∃ row id, g.movrVehiclesInitialRow P i = some row ∧ row.get? 0 = some id := by
  obtain ⟨c, h1, q0, q11⟩ := cityForRow_range g.vehicles.numRows i hv hvb hi0 hi
  have h1' : g.vehicles.cityForRow i = some c := h1
  obtain ⟨city, h2⟩ := cityAt_some _ q0 q11
  obtain ⟨j, rng2, h3, hj0, hj⟩ := randRowInCity_row g.users.numRows c
    (P.randVehicleType (P.newRand (g.rowSeed i))).2 hu (by omega) q0 q11
  have h3' : g.users.randRowInCity (P.randVehicleType (P.newRand (g.rowSeed i))).2 c
      = some (j, rng2) := h3
  obtain ⟨urow, uid, h4, h5⟩ := usersRow_prod P g j hu hub hj0 hj
  obtain ⟨vt, st, loc, ext, h6⟩ :=
    vehiclesRow_of_owner P g i _ j city rng2 _ _ h1' h2 h3' h4 h5
  exact ⟨_, _, h6, rfl⟩

/-- A rides row is produced for every row index when the users, vehicles and
rides tables have `12..2^51` rows. -/
theorem ridesRow_prod (P : Provider) (g : movr) (i : Int)
    (hu : 12 ≤ g.users.numRows) (hub : g.users.numRows ≤ 2 ^ 51)
    (hv : 12 ≤ g.vehicles.numRows) (hvb : g.vehicles.numRows ≤ 2 ^ 51)
    (hr : 12 ≤ g.rides.numRows) (hrb : g.rides.numRows ≤ 2 ^ 51)
    (hi0 : 0 ≤ i) (hi : i < g.rides.numRows) :
    ∃ row id, g.movrRidesInitialRow P i = some row ∧ row.get? 0 = some id := by
  obtain ⟨c, h1, q0, q11⟩ := cityForRow_range g.rides.numRows i hr hrb hi0 hi
  have h1' : g.rides.cityForRow i = some c := h1
  obtain ⟨city, h2⟩ := cityAt_some _ q0 q11
  obtain ⟨j, rng1, h3, hj0, hj⟩ := randRowInCity_row g.users.numRows c
    (P.newRand (g.rowSeed i)) hu (by omega) q0 q11
  have h3' : g.users.randRowInCity (P.newRand (g.rowSeed i)) c = some (j, rng1) := h3
  obtain ⟨urow, uid, h4, h4'⟩ := usersRow_prod P g j hu hub hj0 hj
  obtain ⟨k, rng2, h5, hk0, hk⟩ := randRowInCity_row g.vehicles.numRows c rng1 hv (by omega) q0 q11
  have h5' : g.vehicles.randRowInCity rng1 c = some (k, rng2) := h5
  obtain ⟨vrow, vid, h6, h6'⟩ := vehiclesRow_prod P g k hu hub hv hvb hk0 hk
  unfold movr.movrRidesInitialRow
  simp only [h1', h2, h3', h4, h4', h5', h6, h6', Option.bind,
    Rand.Intn_pos _ 30 (by norm_num), Rand.Intn_pos _ 100 (by norm_num)]
  exact ⟨_, _, rfl, rfl⟩

/-- A history row is produced for every row index when all four tables have
`12..2^51` rows; its third field renders the epoch plus `rowIdx` milliseconds
(in wrapping 64-bit nanoseconds). -/
theorem historiesRow_prod (P : Provider) (g : movr) (i : Int)
    (hu : 12 ≤ g.users.numRows) (hub : g.users.numRows ≤ 2 ^ 51)
    (hv : 12 ≤ g.vehicles.numRows) (hvb : g.vehicles.numRows ≤ 2 ^ 51)
    (hr : 12 ≤ g.rides.numRows) (hrb : g.rides.numRows ≤ 2 ^ 51)
    (hh : 12 ≤ g.histories.numRows) (hhb : g.histories.numRows ≤ 2 ^ 51)
    (hi0 : 0 ≤ i) (hi : i < g.histories.numRows) :
    ∃ row, g.movrVehicleLocationHistoriesInitialRow P i = some row ∧
      row.get? 2 = some (formatTimestamp (g.creationTime + wrap64 (i * millisecond))) := by
  obtain ⟨c, h1, q0, q11⟩ := cityForRow_range g.histories.numRows i hh hhb hi0 hi
  have h1' : g.histories.cityForRow i = some c := h1
  obtain ⟨city, h2⟩ := cityAt_some _ q0 q11
  obtain ⟨j, rng1, h3, hj0, hj⟩ := randRowInCity_row g.rides.numRows c
    (P.newRand (g.rowSeed i)) hr (by omega) q0 q11
  have h3' : g.rides.randRowInCity (P.newRand (g.rowSeed i)) c = some (j, rng1) := h3
  obtain ⟨rrow, rid, h4, h5⟩ := ridesRow_prod P g j hu hub hv hvb hr hrb hj0 hj
  unfold movr.movrVehicleLocationHistoriesInitialRow
  simp only [h1', h2, h3', h4, Option.bind, h5,
    Rand.Intn_pos _ 360 (by norm_num), Rand.Intn_pos _ 180 (by norm_num)]
  exact ⟨_, rfl, rfl⟩

/-- C9 (amended): when the four tables have between 12 and `2 ^ 51` rows, the
history rows `i < j` of `[0, histories.numRows)` with `j ≤ 9223372036854`
(the offset `j * 1000000` ns fits `time.Duration`) are both produced and the
timestamp of row `i` is strictly earlier than the timestamp of row `j`. -/
theorem history_timestamps_increase (P : Provider) (g : movr) (i j : Int)
    (hu : 12 ≤ g.users.numRows) (hub : g.users.numRows ≤ 2 ^ 51)
    (hv : 12 ≤ g.vehicles.numRows) (hvb : g.vehicles.numRows ≤ 2 ^ 51)
    (hr : 12 ≤ g.rides.numRows) (hrb : g.rides.numRows ≤ 2 ^ 51)
    (hh : 12 ≤ g.histories.numRows) (hhb : g.histories.numRows ≤ 2 ^ 51)
    (hi0 : 0 ≤ i) (hij : i < j) (hj : j < g.histories.numRows) (hjm : j ≤ maxMillis) :
    ∃ rowi rowj ti tj, g.movrVehicleLocationHistoriesInitialRow P i = some rowi ∧
      g.movrVehicleLocationHistoriesInitialRow P j = some rowj ∧
      rowi.get? 2 = some (Datum.timestamp ti) ∧ rowj.get? 2 = some (Datum.timestamp tj) ∧
      ti < tj := by
  obtain ⟨rowi, hrowi, hti⟩ :=
    historiesRow_prod P g i hu hub hv hvb hr hrb hh hhb hi0 (by omega)
  obtain ⟨rowj, hrowj, htj⟩ :=
    historiesRow_prod P g j hu hub hv hvb hr hrb hh hhb (by omega) hj
  unfold maxMillis at hjm
  rw [wrap64_id _ (by unfold millisecond; omega) (by unfold millisecond; omega)] at hti htj
  refine ⟨rowi, rowj, _, _, hrowi, hrowj, hti, htj, ?_⟩
  unfold millisecond
  omega

/-- C9, witness: history rows 3 and 4 of the default configuration. -/
theorem history_timestamps_increase_witness :
    (12 : Int) ≤ movrDefault.users.numRows ∧ movrDefault.users.numRows ≤ 2 ^ 51 ∧
    (12 : Int) ≤ movrDefault.vehicles.numRows ∧ movrDefault.vehicles.numRows ≤ 2 ^ 51 ∧
    (12 : Int) ≤ movrDefault.rides.numRows ∧ movrDefault.rides.numRows ≤ 2 ^ 51 ∧
    (12 : Int) ≤ movrDefault.histories.numRows ∧ movrDefault.histories.numRows ≤ 2 ^ 51 ∧
    (0 : Int) ≤ 3 ∧ (3 : Int) < 4 ∧ 4 < movrDefault.histories.numRows ∧ 4 ≤ maxMillis ∧
    ∃ rowi rowj ti tj,
      movrDefault.movrVehicleLocationHistoriesInitialRow zeroProvider 3 = some rowi ∧
      movrDefault.movrVehicleLocationHistoriesInitialRow zeroProvider 4 = some rowj ∧
      rowi.get? 2 = some (Datum.timestamp ti) ∧ rowj.get? 2 = some (Datum.timestamp tj) ∧
      ti < tj :=
  ⟨by decide, by decide, by decide, by decide, by decide, by decide, by decide, by decide,
    by decide, by decide, by decide, by decide,
    history_timestamps_increase zeroProvider movrDefault 3 4 (by decide) (by decide)
      (by decide) (by decide) (by decide) (by decide) (by decide) (by decide) (by decide)
      (by decide) (by decide) (by decide)⟩

set_option maxRecDepth 1000000 in
/-- C9, counterexample: with 9223372036856 history rows, the offset of row
9223372036855 overflows `time.Duration` and wraps to a negative value, so its
timestamp (in the year 1726) is earlier than the timestamp of row 0. -/
theorem history_timestamps_increase_fails :
    (0 : Int) < 9223372036855 ∧ 9223372036855 < manyHistories.histories.numRows ∧
    (manyHistories.movrVehicleLocationHistoriesInitialRow zeroProvider 0).bind
        (fun row => row.get? 2) = some (Datum.timestamp 1546398245000000) ∧
    (manyHistories.movrVehicleLocationHistoriesInitialRow zeroProvider 9223372036855).bind
        (fun row => row.get? 2) = some (Datum.timestamp (-7676973791854552)) ∧
    ¬ ((1546398245000000 : Int) < -7676973791854552) := by
  refine ⟨by decide, by decide, by decide, by decide, by decide⟩

end Movr
